import Mathlib

/-!
Verification of the foreign-key cascade analyzer in `can-i-delete.ts`.

The analyzer has two phases, embedded here over an arena of table nodes
(arena indices play the role of JavaScript object references):

* `collectStep` mirrors `collectRelations`: starting from a root table it
  materializes the connected relation graph, guarded by a per-table
  `collected` flag.  The table registry (`allTables` in the source) is the
  `registry` association list; `tableFor` mirrors the function of the same
  name.  Note that the root table is created directly and never registered,
  exactly as in the source.
* `fncFuel` mirrors `findNonCascading`: a depth-first search over the built
  graph that skips relations whose `owner` field is `parent`, returns the
  first relation whose `cascades` flag is false together with a name chain,
  and otherwise recurses.  The `checked` component of `ProgState` mirrors
  the module-level `checkedTables` set.

Recursion in the source is genuine; here both functions take a fuel
argument, and fuel-independence theorems show that beyond an explicit bound
the fuel is irrelevant, which is the termination content of the source.
-/

set_option maxHeartbeats 1600000

namespace CanIDelete

/-- One raw foreign-key edge as returned by the schema query: `name` is the
child (referencing) table, `table` is the parent (referenced) table. -/
structure RelationRecord where
  name : String
  table : String
  on_delete : String
deriving DecidableEq

/-- The `owner` field of a relation, exactly the `"parent" | "self"` union
in the source. -/
inductive Owner where
  | parent
  | self
deriving DecidableEq

/-- One entry of a table's `relations` array.  `parent` and `table` are
arena indices standing for the object references of the source. -/
structure TableRelation where
  parent : Nat
  owner : Owner
  table : Nat
  cascades : Bool
deriving DecidableEq

/-- A table node: name, relations in insertion order, and the build-phase
`collected` marker. -/
structure Table where
  name : String
  relations : List TableRelation
  collected : Bool
deriving DecidableEq

/-- The build-phase global state: the arena of table nodes (indices are
object identities) and the `allTables` name-to-node registry. -/
structure BuildState where
  arena : List Table
  registry : List (String × Nat)
deriving DecidableEq

def emptyTable : Table := ⟨"", [], false⟩

def getT (s : BuildState) (id : Nat) : Table := s.arena.getD id emptyTable

def setT (s : BuildState) (id : Nat) (t : Table) : BuildState :=
  ⟨s.arena.set id t, s.registry⟩

/-- `table.relations.push(r)` on node `id`. -/
def pushRel (s : BuildState) (id : Nat) (r : TableRelation) : BuildState :=
  setT s id ⟨(getT s id).name, (getT s id).relations ++ [r], (getT s id).collected⟩

/-- `table.collected = true` on node `id`. -/
def markCollected (s : BuildState) (id : Nat) : BuildState :=
  setT s id ⟨(getT s id).name, (getT s id).relations, true⟩

/-- `tableFor` from the source: return the registered node for a name, or
create, register and return a fresh one. -/
def tableFor (s : BuildState) (n : String) : Nat × BuildState :=
  match s.registry.lookup n with
  | some id => (id, s)
  | none =>
      (s.arena.length,
        ⟨s.arena ++ [⟨n, [], false⟩], s.registry ++ [(n, s.arena.length)]⟩)

/-- The body of the edge loop in `collectRelations`, for one raw edge `e`
processed at table `id`; `rec` is the recursive call. -/
def collectEdge (rec : BuildState → Nat → BuildState) (id : Nat) (s : BuildState)
    (e : RelationRecord) : BuildState :=
  if e.name = (getT s id).name then
    let p := tableFor s e.table
    rec (pushRel p.2 id ⟨id, Owner.parent, p.1, decide (e.on_delete = "CASCADE")⟩) p.1
  else if e.table = (getT s id).name then
    let p := tableFor s e.name
    rec (pushRel p.2 id ⟨id, Owner.self, p.1, decide (e.on_delete = "CASCADE")⟩) p.1
  else s

/-- `collectRelations` from the source, with explicit fuel standing for the
call stack: guard on `collected`, set the marker, process every raw edge,
then the defensive second pass over the accumulated relations. -/
def collectStep (edges : List RelationRecord) : Nat → BuildState → Nat → BuildState
  | 0, s, _ => s
  | fuel + 1, s, id =>
    if (getT s id).collected = true then s
    else
      let s2 := edges.foldl (collectEdge (collectStep edges fuel) id) (markCollected s id)
      (getT s2 id).relations.foldl (fun s3 r => collectStep edges fuel s3 r.table) s2

/-- The initial state: the root table object for the target name, created
directly (and, as in the source, not registered). -/
def initState (target : String) : BuildState := ⟨[⟨target, [], false⟩], []⟩

/-- All table names occurring in the raw edges, deduplicated. -/
def allNames (edges : List RelationRecord) : List String :=
  (edges.map RelationRecord.name ++ edges.map RelationRecord.table).dedup

/-- Sufficient fuel for the build: one unit per creatable table plus slack. -/
def buildFuel (edges : List RelationRecord) : Nat := (allNames edges).length + 2

/-- The whole build phase: `collectRelations(table)` on the root. -/
def build (edges : List RelationRecord) (target : String) : BuildState :=
  collectStep edges (buildFuel edges) (initState target) 0

/-- The value returned by `findNonCascading` on success. -/
structure SearchResult where
  found : TableRelation
  relationChain : List String
deriving DecidableEq

/-- The state visible to the search: the built graph plus the module-level
`checkedTables` set (a list of arena indices, newest first). -/
structure ProgState where
  bs : BuildState
  checked : List Nat
deriving DecidableEq

/-- The relation loop of `findNonCascading`; `next` is the recursive call.
Relations with `owner = parent` are skipped; a non-cascading relation is
returned at once with the two-element chain; otherwise the child is
searched and on success the current table's name is prepended. -/
def fncLoop (next : ProgState → Nat → Option SearchResult × ProgState) :
    List TableRelation → ProgState → Option SearchResult × ProgState
  | [], st => (none, st)
  | r :: rs, st =>
    if r.owner = Owner.parent then fncLoop next rs st
    else if r.cascades = false then
      (some ⟨r, [(getT st.bs r.parent).name, (getT st.bs r.table).name]⟩, st)
    else
      match next st r.table with
      | (some res, st1) =>
          (some ⟨res.found, (getT st1.bs r.parent).name :: res.relationChain⟩, st1)
      | (none, st1) => fncLoop next rs st1

/-- `findNonCascading` from the source, with explicit fuel: return `none`
for an already-checked table, otherwise add it to `checkedTables` and run
the relation loop. -/
def fncFuel : Nat → ProgState → Nat → Option SearchResult × ProgState
  | 0, st, _ => (none, st)
  | fuel + 1, st, id =>
    if id ∈ st.checked then (none, st)
    else fncLoop (fncFuel fuel) (getT st.bs id).relations ⟨st.bs, id :: st.checked⟩

/-- Sufficient fuel for the search: one unit per arena node plus one. -/
def searchFuel (s : BuildState) : Nat := s.arena.length + 1

/-- The whole analysis as the program runs it: build the graph from the raw
edges, then search from the root with the initially empty checked set. -/
def analyze (edges : List RelationRecord) (target : String) :
    Option SearchResult × ProgState :=
  fncFuel (searchFuel (build edges target)) ⟨build edges target, []⟩ 0

/-- The name-level view of one relation: owner, name of the related table,
cascades flag. -/
def relView (s : BuildState) (r : TableRelation) : Owner × String × Bool :=
  (r.owner, (getT s r.table).name, r.cascades)

/-- The relations `collectRelations` accumulates for a table named `n`, at
the name level: for each raw edge where `n` is the child an `Owner.parent`
entry to the parent table, for each raw edge where `n` is the parent an
`Owner.self` entry to the child table. -/
def canonRels (edges : List RelationRecord) (n : String) : List (Owner × String × Bool) :=
  edges.filterMap (fun e =>
    if e.name = n then some (Owner.parent, e.table, decide (e.on_delete = "CASCADE"))
    else if e.table = n then some (Owner.self, e.name, decide (e.on_delete = "CASCADE"))
    else none)

/-- Schema-level reachability along the traversal direction: from table `a`
one step goes to the child of a cascading edge whose parent is the current
table. -/
inductive ReachC (edges : List RelationRecord) : String → String → Prop where
  | refl (a : String) : ReachC edges a a
  | step {a b : String} (e : RelationRecord) : ReachC edges a b → e ∈ edges →
      e.table = b → e.on_delete = "CASCADE" → ReachC edges a e.name

/-- Arena-level reachability through cascading `Owner.self` relations. -/
inductive IdReach (s : BuildState) : Nat → Nat → Prop where
  | refl (a : Nat) : IdReach s a a
  | step {a b : Nat} (r : TableRelation) : IdReach s a b →
      r ∈ (getT s b).relations → r.owner = Owner.self → r.cascades = true →
      IdReach s a r.table

/-- The last two elements of a list. -/
def lastTwo (l : List String) : List String := l.drop (l.length - 2)

/-- A table with its `owner = parent` relations removed. -/
def filterSelfT (t : Table) : Table :=
  ⟨t.name, t.relations.filter (fun r => decide (r.owner = Owner.self)), t.collected⟩

/-- A build state in which every table keeps only its `owner = self`
relations. -/
def dropParent (s : BuildState) : BuildState :=
  ⟨s.arena.map filterSelfT, s.registry⟩

/-- Well-formedness of the relation entries of an arena: each relation's
`parent` field is the index of the node holding it, and its `table` field
is a valid index. -/
def RelsWF (bs : BuildState) : Prop :=
  ∀ id : Nat, ∀ r ∈ (getT bs id).relations, r.parent = id ∧ r.table < bs.arena.length

/-- Every collected table carries exactly the canonical relation list for
its name, and the targets of its relations are collected. -/
def CollectedOK (edges : List RelationRecord) (bs : BuildState) : Prop :=
  ∀ id : Nat, (getT bs id).collected = true →
    ((getT bs id).relations.map (relView bs) = canonRels edges ((getT bs id).name) ∧
      ∀ r ∈ (getT bs id).relations, (getT bs r.table).collected = true)

/-- What the build phase guarantees about the state the search runs on. -/
def BuiltOK (edges : List RelationRecord) (target : String) (bs : BuildState) : Prop :=
  RelsWF bs ∧ CollectedOK edges bs ∧ 0 < bs.arena.length ∧
    (getT bs 0).collected = true ∧ (getT bs 0).name = target

/-- What a successful search from node `id` returns: the witness is a
non-cascading `Owner.self` relation held by a node reachable from `id`,
and the chain starts at `id`'s name and ends with the names of the
witness's holder and related table. -/
def SoundRes (bs : BuildState) (id : Nat) (res : SearchResult) : Prop :=
  res.found.owner = Owner.self ∧ res.found.cascades = false ∧
  res.found ∈ (getT bs res.found.parent).relations ∧
  IdReach bs id res.found.parent ∧
  2 ≤ res.relationChain.length ∧
  res.relationChain.head? = some ((getT bs id).name) ∧
  lastTwo res.relationChain =
    [(getT bs res.found.parent).name, (getT bs res.found.table).name]

/-- A fully searched node: all its `Owner.self` relations cascade and their
targets are in the checked set `C`. -/
def GoodT (bs : BuildState) (j : Nat) (C : List Nat) : Prop :=
  ∀ r ∈ (getT bs j).relations, r.owner = Owner.self →
    r.cascades = true ∧ r.table ∈ C

/-- Search precondition: the checked set is duplicate-free, in range, and
the fuel covers the nodes not yet checked. -/
def SPre (bs : BuildState) (fuel : Nat) (st : ProgState) : Prop :=
  st.bs = bs ∧ st.checked.Nodup ∧ (∀ j ∈ st.checked, j < bs.arena.length) ∧
  bs.arena.length + 1 ≤ fuel + st.checked.length

/-- Search postcondition for a call on node `id`: the checked set grows,
stays duplicate-free and in range, and on a `none` result `id` was visited
and every newly visited node is fully searched. -/
def SPost (bs : BuildState) (st : ProgState) (id : Nat)
    (out : Option SearchResult × ProgState) : Prop :=
  (∃ pre, out.2.checked = pre ++ st.checked) ∧ out.2.checked.Nodup ∧
  (∀ j ∈ out.2.checked, j < bs.arena.length) ∧
  (out.1 = none → id ∈ out.2.checked ∧
    ∀ j ∈ out.2.checked, j ∉ st.checked → GoodT bs j out.2.checked)

/-- Loop postcondition over a relation suffix `rs`: on a `none` result
every `Owner.self` relation in `rs` cascades with a visited target. -/
def LPost (bs : BuildState) (st : ProgState) (rs : List TableRelation)
    (out : Option SearchResult × ProgState) : Prop :=
  (∃ pre, out.2.checked = pre ++ st.checked) ∧ out.2.checked.Nodup ∧
  (∀ j ∈ out.2.checked, j < bs.arena.length) ∧
  (out.1 = none →
    (∀ r ∈ rs, r.owner = Owner.self → r.cascades = true ∧ r.table ∈ out.2.checked) ∧
    ∀ j ∈ out.2.checked, j ∉ st.checked → GoodT bs j out.2.checked)

/-- The collected nodes of an arena, as a finite set of indices. -/
def CSet (s : BuildState) : Finset Nat :=
  (Finset.range s.arena.length).filter (fun i => (getT s i).collected = true)

/-- Build-state evolution: the arena only grows, the registry is extended,
names are preserved and the collected flag is monotone. -/
def EvolveCore (s s' : BuildState) : Prop :=
  s.arena.length ≤ s'.arena.length ∧
  (∃ t, s'.registry = s.registry ++ t) ∧
  (∀ id, id < s.arena.length → (getT s' id).name = (getT s id).name) ∧
  (∀ id, (getT s id).collected = true → (getT s' id).collected = true)

/-- Evolution that freezes the relations of every collected table. -/
def Evolves (s s' : BuildState) : Prop :=
  EvolveCore s s' ∧
  ∀ id, (getT s id).collected = true → (getT s' id).relations = (getT s id).relations

/-- Evolution that freezes the relations of every collected table except
possibly `x` (the table currently being processed). -/
def EvolvesX (x : Nat) (s s' : BuildState) : Prop :=
  EvolveCore s s' ∧
  ∀ id, id ≠ x → (getT s id).collected = true →
    (getT s' id).relations = (getT s id).relations

/-- Registry invariant: one more arena node than registry entries (the
unregistered root), registered indices are nonzero, in range, named by
their key, drawn from the edge names, and both keys and indices are
duplicate-free. -/
def RegOK (edges : List RelationRecord) (s : BuildState) : Prop :=
  s.arena.length = s.registry.length + 1 ∧
  (∀ p ∈ s.registry,
    (getT s p.2).name = p.1 ∧ 1 ≤ p.2 ∧ p.2 < s.arena.length ∧ p.1 ∈ allNames edges) ∧
  (s.registry.map Prod.fst).Nodup ∧
  (s.registry.map Prod.snd).Nodup

/-- Relation invariant: each relation's `parent` is its holder, its target
is a registered (hence nonzero, in-range) node, and looking the target's
name up in the registry yields the target itself. -/
def RelOK (s : BuildState) : Prop :=
  ∀ id : Nat, ∀ r ∈ (getT s id).relations,
    r.parent = id ∧ 1 ≤ r.table ∧ r.table < s.arena.length ∧
    s.registry.lookup ((getT s r.table).name) = some r.table

/-- The grand build invariant, relative to the set `P` of tables whose
relation lists are still being filled (the call stack): uncollected tables
have no relations yet, and collected tables outside `P` carry exactly the
canonical relations for their name, with collected targets. -/
def Inv (edges : List RelationRecord) (s : BuildState) (P : List Nat) : Prop :=
  RegOK edges s ∧ RelOK s ∧
  (∀ id : Nat, (getT s id).collected = false → (getT s id).relations = []) ∧
  (∀ id : Nat, id ∉ P → (getT s id).collected = true →
    ((getT s id).relations.map (relView s) = canonRels edges ((getT s id).name) ∧
      ∀ r ∈ (getT s id).relations, (getT s r.table).collected = true)) ∧
  (∀ id ∈ P, (getT s id).collected = true)

end CanIDelete

namespace CanIDelete

theorem getT_eq (s : BuildState) (id : Nat) :
    getT s id = (s.arena[id]?).getD emptyTable :=
  List.getD_eq_getElem?_getD ..

theorem length_setT (s : BuildState) (id : Nat) (t : Table) :
    (setT s id t).arena.length = s.arena.length :=
  List.length_set ..

theorem registry_setT (s : BuildState) (id : Nat) (t : Table) :
    (setT s id t).registry = s.registry := rfl

theorem getT_setT_self {s : BuildState} {id : Nat} {t : Table}
    (h : id < s.arena.length) : getT (setT s id t) id = t := by
  simp [getT_eq, setT, List.getElem?_set_self h]

theorem getT_setT_ne {s : BuildState} {id : Nat} {t : Table} {j : Nat}
    (h : id ≠ j) : getT (setT s id t) j = getT s j := by
  simp [getT_eq, setT, List.getElem?_set_ne h]

theorem getT_big {s : BuildState} {id : Nat} (h : s.arena.length ≤ id) :
    getT s id = emptyTable := by
  simp [getT_eq, List.getElem?_eq_none h]

theorem fncLoop_bs {next : ProgState → Nat → Option SearchResult × ProgState}
    (hnext : ∀ st id, ((next st id).2).bs = st.bs) :
    ∀ (rels : List TableRelation) (st : ProgState),
      ((fncLoop next rels st).2).bs = st.bs := by
  intro rels
  induction rels with
  | nil => intro st; rfl
  | cons r rs ih =>
      intro st
      simp only [fncLoop]
      split
      · exact ih st
      · split
        · rfl
        · rcases hres : next st r.table with ⟨o, st1⟩
          have hb : st1.bs = st.bs := by
            have := hnext st r.table
            rw [hres] at this
            exact this
          cases o with
          | some res => simp only [hres]; exact hb
          | none => simp only [hres]; rw [ih st1, hb]

theorem fncFuel_bs : ∀ (fuel : Nat) (st : ProgState) (id : Nat),
    ((fncFuel fuel st id).2).bs = st.bs := by
  intro fuel
  induction fuel with
  | zero => intro st id; rfl
  | succ fuel ih =>
      intro st id
      simp only [fncFuel]
      split
      · rfl
      · exact fncLoop_bs ih (getT st.bs id).relations ⟨st.bs, id :: st.checked⟩

theorem fncLoop_checked {next : ProgState → Nat → Option SearchResult × ProgState}
    (hnext : ∀ st id, ∃ pre, ((next st id).2).checked = pre ++ st.checked) :
    ∀ (rels : List TableRelation) (st : ProgState),
      ∃ pre, ((fncLoop next rels st).2).checked = pre ++ st.checked := by
  intro rels
  induction rels with
  | nil => intro st; exact ⟨[], rfl⟩
  | cons r rs ih =>
      intro st
      simp only [fncLoop]
      split
      · exact ih st
      · split
        · exact ⟨[], rfl⟩
        · rcases hres : next st r.table with ⟨o, st1⟩
          have hc : ∃ pre, st1.checked = pre ++ st.checked := by
            have := hnext st r.table
            rw [hres] at this
            exact this
          cases o with
          | some res => simp only [hres]; exact hc
          | none =>
              simp only [hres]
              obtain ⟨p1, hp1⟩ := hc
              obtain ⟨p2, hp2⟩ := ih st1
              exact ⟨p2 ++ p1, by rw [hp2, hp1, List.append_assoc]⟩

theorem fncFuel_checked : ∀ (fuel : Nat) (st : ProgState) (id : Nat),
    ∃ pre, ((fncFuel fuel st id).2).checked = pre ++ st.checked := by
  intro fuel
  induction fuel with
  | zero => intro st id; exact ⟨[], rfl⟩
  | succ fuel ih =>
      intro st id
      simp only [fncFuel]
      split
      · exact ⟨[], rfl⟩
      · obtain ⟨p, hp⟩ :=
          fncLoop_checked ih (getT st.bs id).relations ⟨st.bs, id :: st.checked⟩
        exact ⟨p ++ [id], by rw [hp, List.append_assoc]; rfl⟩

theorem fncFuel_mem_checked (fuel : Nat) (st : ProgState) (id : Nat)
    (h : id ∈ st.checked) : fncFuel fuel st id = (none, st) := by
  cases fuel <;> simp [fncFuel, h]

theorem filterSelfT_empty : filterSelfT emptyTable = emptyTable := rfl

theorem getT_dropParent (s : BuildState) (id : Nat) :
    getT (dropParent s) id = filterSelfT (getT s id) := by
  have h := List.getD_map s.arena emptyTable (n := id) filterSelfT
  simpa [getT, dropParent, filterSelfT_empty] using h

theorem fncLoop_dropParent {bs : BuildState}
    {next1 next2 : ProgState → Nat → Option SearchResult × ProgState}
    (hbs1 : ∀ st id, ((next1 st id).2).bs = st.bs)
    (hbs2 : ∀ st id, ((next2 st id).2).bs = st.bs)
    (hnext : ∀ ch id,
      (next1 ⟨dropParent bs, ch⟩ id).1 = (next2 ⟨bs, ch⟩ id).1 ∧
      ((next1 ⟨dropParent bs, ch⟩ id).2).checked = ((next2 ⟨bs, ch⟩ id).2).checked) :
    ∀ (rels : List TableRelation) (ch : List Nat),
      (fncLoop next1 (rels.filter (fun r => decide (r.owner = Owner.self)))
          ⟨dropParent bs, ch⟩).1 =
        (fncLoop next2 rels ⟨bs, ch⟩).1 ∧
      ((fncLoop next1 (rels.filter (fun r => decide (r.owner = Owner.self)))
          ⟨dropParent bs, ch⟩).2).checked =
        ((fncLoop next2 rels ⟨bs, ch⟩).2).checked := by
  intro rels
  induction rels with
  | nil => intro ch; exact ⟨rfl, rfl⟩
  | cons r rs ih =>
      intro ch
      by_cases hp : r.owner = Owner.parent
      · have hself : ¬ r.owner = Owner.self := by
          rw [hp]; intro hcon; exact Owner.noConfusion hcon
        simp only [List.filter_cons, hself, decide_eq_true_eq, if_neg hself, fncLoop,
          if_pos hp]
        exact ih ch
      · have hself : r.owner = Owner.self := by
          cases howner : r.owner
          · exact absurd howner hp
          · rfl
        simp only [List.filter_cons, decide_eq_true_eq, if_pos hself, fncLoop, if_neg hp]
        by_cases hc : r.cascades = false
        · simp only [if_pos hc]
          constructor
          · simp [getT_dropParent, filterSelfT]
          · trivial
        · simp only [if_neg hc]
          obtain ⟨ho, hch⟩ := hnext ch r.table
          rcases h1 : next1 ⟨dropParent bs, ch⟩ r.table with ⟨o1, st1⟩
          rcases h2 : next2 ⟨bs, ch⟩ r.table with ⟨o2, st2⟩
          rw [h1, h2] at ho hch
          have hb1 : st1.bs = dropParent bs := by
            have := hbs1 ⟨dropParent bs, ch⟩ r.table; rw [h1] at this; exact this
          have hb2 : st2.bs = bs := by
            have := hbs2 ⟨bs, ch⟩ r.table; rw [h2] at this; exact this
          cases o1 with
          | some res =>
              cases o2 with
              | some res2 =>
                  simp only [Option.some.injEq] at ho
                  subst ho
                  constructor
                  · simp [hb1, hb2, getT_dropParent, filterSelfT]
                  · exact hch
              | none => exact absurd ho (by simp)
          | none =>
              cases o2 with
              | some res2 => exact absurd ho (by simp)
              | none =>
                  obtain ⟨b1, c1⟩ := st1
                  obtain ⟨b2, c2⟩ := st2
                  simp only at hb1 hb2 hch
                  subst hb1; subst hb2; subst hch
                  exact ih c1

theorem fncFuel_dropParent : ∀ (fuel : Nat) (bs : BuildState) (ch : List Nat) (id : Nat),
    (fncFuel fuel ⟨dropParent bs, ch⟩ id).1 = (fncFuel fuel ⟨bs, ch⟩ id).1 ∧
    ((fncFuel fuel ⟨dropParent bs, ch⟩ id).2).checked =
      ((fncFuel fuel ⟨bs, ch⟩ id).2).checked := by
  intro fuel
  induction fuel with
  | zero => intro bs ch id; exact ⟨rfl, rfl⟩
  | succ fuel ih =>
      intro bs ch id
      by_cases h : id ∈ ch
      · simp [fncFuel, h]
      · simp only [fncFuel, if_neg h]
        have hrels : (getT (dropParent bs) id).relations =
            (getT bs id).relations.filter (fun r => decide (r.owner = Owner.self)) := by
          rw [getT_dropParent]; rfl
        rw [hrels]
        exact fncLoop_dropParent (fncFuel_bs fuel) (fncFuel_bs fuel)
          (fun ch' id' => ih bs ch' id') (getT bs id).relations (id :: ch)

theorem Owner.not_parent {o : Owner} (h : ¬ o = Owner.parent) : o = Owner.self := by
  cases o
  · exact absurd rfl h
  · rfl

theorem IdReach_trans {s : BuildState} {a b c : Nat}
    (h1 : IdReach s a b) (h2 : IdReach s b c) : IdReach s a c := by
  induction h2 with
  | refl => exact h1
  | step r _ hmem howner hcasc ih => exact IdReach.step r ih hmem howner hcasc

theorem lastTwo_pair (a b : String) : lastTwo [a, b] = [a, b] := rfl

theorem lastTwo_cons {l : List String} (x : String) (h : 2 ≤ l.length) :
    lastTwo (x :: l) = lastTwo l := by
  have h1 : (x :: l).length - 2 = (l.length - 2) + 1 := by
    simp only [List.length_cons]; omega
  rw [lastTwo, h1, List.drop_succ_cons, lastTwo]

theorem relView_eq_iff {bs : BuildState} {r : TableRelation} {o : Owner}
    {m : String} {c : Bool} (h : relView bs r = (o, m, c)) :
    r.owner = o ∧ (getT bs r.table).name = m ∧ r.cascades = c := by
  unfold relView at h
  injection h with h1 h2
  injection h2 with h2 h3
  exact ⟨h1, h2, h3⟩

theorem fncLoop_sound {bs : BuildState} (hwf : RelsWF bs)
    {next : ProgState → Nat → Option SearchResult × ProgState}
    (hbs : ∀ st id, ((next st id).2).bs = st.bs)
    (hnext : ∀ st id res st1, st.bs = bs → next st id = (some res, st1) →
      SoundRes bs id res) :
    ∀ (rels : List TableRelation) (pid : Nat) (st : ProgState) (res : SearchResult)
      (st1 : ProgState), st.bs = bs →
      (∀ r ∈ rels, r ∈ (getT bs pid).relations) →
      fncLoop next rels st = (some res, st1) → SoundRes bs pid res := by
  intro rels
  induction rels with
  | nil => intro pid st res st1 _ _ hrun; exact absurd hrun (by simp [fncLoop])
  | cons r rs ih =>
      intro pid st res st1 hst hsub hrun
      have hrmem : r ∈ (getT bs pid).relations := hsub r (List.mem_cons_self r rs)
      have hrsub : ∀ x ∈ rs, x ∈ (getT bs pid).relations :=
        fun x hx => hsub x (List.mem_cons_of_mem r hx)
      obtain ⟨hrpar, hrtab⟩ := hwf pid r hrmem
      simp only [fncLoop] at hrun
      split at hrun
      · exact ih pid st res st1 hst hrsub hrun
      · rename ¬ r.owner = Owner.parent => hnp
        have hself : r.owner = Owner.self := Owner.not_parent hnp
        split at hrun
        · rename r.cascades = false => hcf
          rcases hrun with ⟨⟩
          refine ⟨hself, hcf, ?_, ?_, ?_, ?_, ?_⟩
          · rw [hrpar]; exact hrmem
          · rw [hrpar]; exact IdReach.refl pid
          · simp
          · simp [hst, hrpar]
          · simp [hst, lastTwo_pair]
        · rename ¬ r.cascades = false => hct
          have hcasc : r.cascades = true := by
            cases hb : r.cascades
            · exact absurd hb hct
            · rfl
          rcases hres : next st r.table with ⟨o, stm⟩
          rw [hres] at hrun
          have hstm : stm.bs = bs := by
            have := hbs st r.table; rw [hres] at this; rw [this, hst]
          cases o with
          | some res0 =>
              injection hrun with h1 h2
              injection h1 with h1
              subst h1
              obtain ⟨s1, s2, s3, s4, s5, s6, s7⟩ :=
                hnext st r.table res0 stm hst hres
              have hstep : IdReach bs pid r.table :=
                IdReach.step r (IdReach.refl pid) hrmem hself hcasc
              refine ⟨s1, s2, s3, IdReach_trans hstep s4, ?_, ?_, ?_⟩
              · simp only [List.length_cons]; omega
              · simp [hstm, hrpar]
              · simp only []
                rw [lastTwo_cons _ s5]
                exact s7
          | none => exact ih pid stm res st1 hstm hrsub hrun

theorem getT_setT_big {s : BuildState} {id : Nat} {t : Table}
    (h : ¬ id < s.arena.length) (j : Nat) : getT (setT s id t) j = getT s j := by
  by_cases hij : id = j
  · subst hij
    have h1 : s.arena[id]? = none := List.getElem?_eq_none (Nat.le_of_not_lt h)
    simp [getT_eq, setT, List.getElem?_set, h, h1]
  · exact getT_setT_ne hij

theorem getT_pushRel_big {s : BuildState} {id : Nat} {r : TableRelation}
    (h : ¬ id < s.arena.length) (j : Nat) : getT (pushRel s id r) j = getT s j :=
  getT_setT_big h j

theorem getT_mark_big {s : BuildState} {id : Nat}
    (h : ¬ id < s.arena.length) (j : Nat) : getT (markCollected s id) j = getT s j :=
  getT_setT_big h j

theorem getT_pushRel_self {s : BuildState} {id : Nat} {r : TableRelation}
    (h : id < s.arena.length) :
    getT (pushRel s id r) id =
      ⟨(getT s id).name, (getT s id).relations ++ [r], (getT s id).collected⟩ :=
  getT_setT_self h

theorem getT_pushRel_ne {s : BuildState} {id : Nat} {r : TableRelation} {j : Nat}
    (h : id ≠ j) : getT (pushRel s id r) j = getT s j :=
  getT_setT_ne h

theorem name_pushRel (s : BuildState) (id : Nat) (r : TableRelation) (j : Nat) :
    (getT (pushRel s id r) j).name = (getT s j).name := by
  by_cases h : id < s.arena.length
  · by_cases hij : id = j
    · subst hij; rw [getT_pushRel_self h]
    · rw [getT_pushRel_ne hij]
  · rw [getT_pushRel_big h]

theorem collected_pushRel (s : BuildState) (id : Nat) (r : TableRelation) (j : Nat) :
    (getT (pushRel s id r) j).collected = (getT s j).collected := by
  by_cases h : id < s.arena.length
  · by_cases hij : id = j
    · subst hij; rw [getT_pushRel_self h]
    · rw [getT_pushRel_ne hij]
  · rw [getT_pushRel_big h]

theorem length_pushRel (s : BuildState) (id : Nat) (r : TableRelation) :
    (pushRel s id r).arena.length = s.arena.length :=
  length_setT ..

theorem registry_pushRel (s : BuildState) (id : Nat) (r : TableRelation) :
    (pushRel s id r).registry = s.registry := rfl

theorem getT_mark_self {s : BuildState} {id : Nat} (h : id < s.arena.length) :
    getT (markCollected s id) id =
      ⟨(getT s id).name, (getT s id).relations, true⟩ :=
  getT_setT_self h

theorem getT_mark_ne {s : BuildState} {id : Nat} {j : Nat} (h : id ≠ j) :
    getT (markCollected s id) j = getT s j :=
  getT_setT_ne h

theorem name_mark (s : BuildState) (id : Nat) (j : Nat) :
    (getT (markCollected s id) j).name = (getT s j).name := by
  by_cases h : id < s.arena.length
  · by_cases hij : id = j
    · subst hij; rw [getT_mark_self h]
    · rw [getT_mark_ne hij]
  · rw [getT_mark_big h]

theorem relations_mark (s : BuildState) (id : Nat) (j : Nat) :
    (getT (markCollected s id) j).relations = (getT s j).relations := by
  by_cases h : id < s.arena.length
  · by_cases hij : id = j
    · subst hij; rw [getT_mark_self h]
    · rw [getT_mark_ne hij]
  · rw [getT_mark_big h]

theorem collected_mark_mono {s : BuildState} {id : Nat} {j : Nat}
    (h : (getT s j).collected = true) :
    (getT (markCollected s id) j).collected = true := by
  by_cases hl : id < s.arena.length
  · by_cases hij : id = j
    · subst hij; rw [getT_mark_self hl]
    · rw [getT_mark_ne hij]; exact h
  · rw [getT_mark_big hl]; exact h

theorem length_mark (s : BuildState) (id : Nat) :
    (markCollected s id).arena.length = s.arena.length :=
  length_setT ..

theorem registry_mark (s : BuildState) (id : Nat) :
    (markCollected s id).registry = s.registry := rfl

theorem mem_CSet {s : BuildState} {i : Nat} :
    i ∈ CSet s ↔ i < s.arena.length ∧ (getT s i).collected = true := by
  simp [CSet, Finset.mem_filter, Finset.mem_range]

theorem CSet_mono {s s' : BuildState} (h : EvolveCore s s') : CSet s ⊆ CSet s' := by
  intro i hi
  rw [mem_CSet] at hi ⊢
  exact ⟨Nat.lt_of_lt_of_le hi.1 h.1, h.2.2.2 i hi.2⟩

theorem CSet_card_le (s : BuildState) : (CSet s).card ≤ s.arena.length := by
  have h := Finset.card_filter_le (Finset.range s.arena.length)
    (fun i => (getT s i).collected = true)
  rwa [Finset.card_range] at h

theorem CSet_mark {s : BuildState} {id : Nat} (hid : id < s.arena.length) :
    CSet (markCollected s id) = insert id (CSet s) := by
  ext j
  rw [mem_CSet, Finset.mem_insert, mem_CSet, length_mark]
  by_cases hij : id = j
  · subst hij
    rw [getT_mark_self hid]
    simp [hid]
  · rw [getT_mark_ne hij]
    constructor
    · intro hh; exact Or.inr hh
    · intro hh
      rcases hh with hh | hh
      · exact absurd hh.symm hij
      · exact hh

theorem CSet_card_mark {s : BuildState} {id : Nat} (hid : id < s.arena.length)
    (hun : (getT s id).collected = false) :
    (CSet (markCollected s id)).card = (CSet s).card + 1 := by
  rw [CSet_mark hid, Finset.card_insert_of_not_mem]
  rw [mem_CSet]
  intro hc
  rw [hun] at hc
  exact Bool.noConfusion hc.2

theorem evolveCore_refl (s : BuildState) : EvolveCore s s :=
  ⟨Nat.le_refl _, ⟨[], by simp⟩, fun _ _ => rfl, fun _ h => h⟩

theorem evolveCore_trans {s s' s'' : BuildState}
    (h1 : EvolveCore s s') (h2 : EvolveCore s' s'') : EvolveCore s s'' := by
  obtain ⟨a1, ⟨t1, ht1⟩, a3, a4⟩ := h1
  obtain ⟨b1, ⟨t2, ht2⟩, b3, b4⟩ := h2
  refine ⟨Nat.le_trans a1 b1, ⟨t1 ++ t2, ?_⟩, ?_, ?_⟩
  · rw [ht2, ht1, List.append_assoc]
  · intro id hid
    rw [b3 id (Nat.lt_of_lt_of_le hid a1), a3 id hid]
  · intro id h
    exact b4 id (a4 id h)

theorem evolves_refl (s : BuildState) : Evolves s s :=
  ⟨evolveCore_refl s, fun _ _ => rfl⟩

theorem evolves_trans {s s' s'' : BuildState}
    (h1 : Evolves s s') (h2 : Evolves s' s'') : Evolves s s'' := by
  refine ⟨evolveCore_trans h1.1 h2.1, ?_⟩
  intro id h
  rw [h2.2 id (h1.1.2.2.2 id h), h1.2 id h]

theorem evolves_toX (x : Nat) {s s' : BuildState} (h : Evolves s s') :
    EvolvesX x s s' :=
  ⟨h.1, fun id _ hc => h.2 id hc⟩

theorem evolvesX_trans {x : Nat} {s s' s'' : BuildState}
    (h1 : EvolvesX x s s') (h2 : EvolvesX x s' s'') : EvolvesX x s s'' := by
  refine ⟨evolveCore_trans h1.1 h2.1, ?_⟩
  intro id hx h
  rw [h2.2 id hx (h1.1.2.2.2 id h), h1.2 id hx h]

theorem evolvesX_toEvolves {x : Nat} {s s' : BuildState} (h : EvolvesX x s s')
    (hx : (getT s x).collected = false) : Evolves s s' := by
  refine ⟨h.1, ?_⟩
  intro id hc
  by_cases hix : id = x
  · subst hix; rw [hc] at hx; exact Bool.noConfusion hx
  · exact h.2 id hix hc

theorem evolves_mark (s : BuildState) (id : Nat) : Evolves s (markCollected s id) := by
  refine ⟨⟨?_, ⟨[], by simp [registry_mark]⟩, ?_, ?_⟩, ?_⟩
  · rw [length_mark]
  · intro j _; rw [name_mark]
  · intro j h; exact collected_mark_mono h
  · intro j _; rw [relations_mark]

theorem evolvesX_pushRel (s : BuildState) (id : Nat) (r : TableRelation) :
    EvolvesX id s (pushRel s id r) := by
  refine ⟨⟨?_, ⟨[], by simp [registry_pushRel]⟩, ?_, ?_⟩, ?_⟩
  · rw [length_pushRel]
  · intro j _; rw [name_pushRel]
  · intro j h; rw [collected_pushRel]; exact h
  · intro j hj _
    by_cases hl : id < s.arena.length
    · rw [getT_pushRel_ne (fun he => hj he.symm)]
    · rw [getT_pushRel_big hl]

theorem lookup_mem : ∀ {l : List (String × Nat)} {n : String} {v : Nat},
    List.lookup n l = some v → (n, v) ∈ l := by
  intro l
  induction l with
  | nil => intro n v h; exact absurd h (by simp [List.lookup])
  | cons p l ih =>
      intro n v h
      rcases p with ⟨k, b⟩
      rw [List.lookup_cons] at h
      cases hk : n == k with
      | true =>
          rw [hk] at h
          simp only at h
          injection h with h
          subst h
          have : n = k := eq_of_beq hk
          subst this
          exact List.mem_cons_self _ _
      | false =>
          rw [hk] at h
          simp only at h
          exact List.mem_cons_of_mem _ (ih h)

theorem lookup_none_key : ∀ {l : List (String × Nat)} {n : String},
    List.lookup n l = none → ∀ p ∈ l, ¬ p.1 = n := by
  intro l
  induction l with
  | nil => intro n _ p hp; exact absurd hp (List.not_mem_nil p)
  | cons q l ih =>
      intro n h p hp
      rcases q with ⟨k, b⟩
      rw [List.lookup_cons] at h
      cases hk : n == k with
      | true => rw [hk] at h; exact absurd h (by simp)
      | false =>
          rw [hk] at h
          simp only at h
          rcases List.mem_cons.1 hp with hp | hp
          · subst hp
            intro hc
            simp only at hc
            subst hc
            rw [beq_self_eq_true] at hk
            exact Bool.noConfusion hk
          · exact ih h p hp

theorem lookup_append_some {l t : List (String × Nat)} {n : String} {v : Nat}
    (h : List.lookup n l = some v) : List.lookup n (l ++ t) = some v := by
  rw [List.lookup_append, h]; rfl

theorem relView_congr {s s' : BuildState}
    (hname : ∀ j, j < s.arena.length → (getT s' j).name = (getT s j).name)
    {rels : List TableRelation} (hb : ∀ r ∈ rels, r.table < s.arena.length) :
    rels.map (relView s') = rels.map (relView s) :=
  List.map_congr_left (fun r hr => by
    unfold relView
    rw [hname r.table (hb r hr)])

theorem canonRels_append (a b : List RelationRecord) (n : String) :
    canonRels (a ++ b) n = canonRels a n ++ canonRels b n :=
  List.filterMap_append ..

theorem collected_lt {s : BuildState} {id : Nat}
    (h : (getT s id).collected = true) : id < s.arena.length := by
  by_contra hc
  rw [getT_big (Nat.le_of_not_lt hc)] at h
  exact Bool.noConfusion h

theorem mem_rels_lt {s : BuildState} {id : Nat} {r : TableRelation}
    (h : r ∈ (getT s id).relations) : id < s.arena.length := by
  by_contra hc
  rw [getT_big (Nat.le_of_not_lt hc)] at h
  exact absurd h (List.not_mem_nil r)

theorem getT_snoc_old {s : BuildState} {t : Table} {reg : List (String × Nat)}
    {j : Nat} (hj : j < s.arena.length) :
    getT ⟨s.arena ++ [t], reg⟩ j = getT s j := by
  show (s.arena ++ [t]).getD j emptyTable = s.arena.getD j emptyTable
  exact List.getD_append _ _ _ _ hj

theorem getT_snoc_new (s : BuildState) (t : Table) (reg : List (String × Nat)) :
    getT ⟨s.arena ++ [t], reg⟩ s.arena.length = t := by
  show (s.arena ++ [t]).getD s.arena.length emptyTable = t
  rw [List.getD_append_right _ _ _ _ (Nat.le_refl _), Nat.sub_self]
  rfl

theorem tableFor_inv {edges : List RelationRecord} {s : BuildState} {n : String}
    {P : List Nat} (hinv : Inv edges s P) (hn : n ∈ allNames edges) :
    Inv edges (tableFor s n).2 P ∧ Evolves s (tableFor s n).2 ∧
    (tableFor s n).2.registry.lookup n = some (tableFor s n).1 ∧
    1 ≤ (tableFor s n).1 ∧ (tableFor s n).1 < (tableFor s n).2.arena.length ∧
    (getT (tableFor s n).2 (tableFor s n).1).name = n ∧
    (∀ j, j < s.arena.length → getT (tableFor s n).2 j = getT s j) := by
  obtain ⟨⟨hR2, hRm, hR4, hR6⟩, hrel, hZ, hD, hPC⟩ := hinv
  rcases hlk : s.registry.lookup n with _ | id
  · -- create a fresh table
    set s' : BuildState :=
      ⟨s.arena ++ [⟨n, [], false⟩], s.registry ++ [(n, s.arena.length)]⟩ with hs'
    have hfst : (tableFor s n).1 = s.arena.length := by
      simp [tableFor, hlk]
    have hsnd : (tableFor s n).2 = s' := by
      simp [tableFor, hlk, hs']
    rw [hfst, hsnd]
    have hlen' : s'.arena.length = s.arena.length + 1 := by
      simp [hs']
    have hold : ∀ j, j < s.arena.length → getT s' j = getT s j := by
      intro j hj
      exact getT_snoc_old hj
    have hnew : getT s' s.arena.length = ⟨n, [], false⟩ :=
      getT_snoc_new s ⟨n, [], false⟩ _
    have hbig : ∀ j, s.arena.length + 1 ≤ j → getT s' j = emptyTable := by
      intro j hj
      apply getT_big
      rw [hlen']
      exact hj
    have hgetT : ∀ j, ¬ j < s.arena.length → j ≠ s.arena.length →
        getT s' j = getT s j := by
      intro j h1 h2
      rw [hbig j (by omega), getT_big (by omega)]
    have hcore : EvolveCore s s' := by
      refine ⟨by omega, ⟨[(n, s.arena.length)], rfl⟩, ?_, ?_⟩
      · intro j hj; rw [hold j hj]
      · intro j hc
        have hj := collected_lt hc
        rw [hold j hj]
        exact hc
    have hev : Evolves s s' := by
      refine ⟨hcore, ?_⟩
      intro j hc
      have hj := collected_lt hc
      rw [hold j hj]
    have hnames : ∀ j, j < s.arena.length → (getT s' j).name = (getT s j).name := by
      intro j hj; rw [hold j hj]
    refine ⟨⟨⟨?_, ?_, ?_, ?_⟩, ?_, ?_, ?_, ?_⟩, hev, ?_, ?_, ?_, ?_, hold⟩
    · -- R2
      simp [hs', hR2]
    · -- registered entries
      intro p hp
      rcases List.mem_append.1 hp with hp | hp
      · obtain ⟨hp1, hp2, hp3, hp4⟩ := hRm p hp
        rw [hold p.2 hp3]
        exact ⟨hp1, hp2, by omega, hp4⟩
      · rcases List.mem_singleton.1 hp with rfl
        rw [hnew]
        exact ⟨rfl, by omega, by omega, hn⟩
    · -- keys nodup
      rw [List.map_append, List.nodup_append]
      refine ⟨hR4, List.nodup_singleton n, ?_⟩
      intro a ha hb
      rcases List.mem_singleton.1 hb with rfl
      obtain ⟨p, hp, hpk⟩ := List.mem_map.1 ha
      exact lookup_none_key hlk p hp hpk
    · -- ids nodup
      rw [List.map_append, List.nodup_append]
      refine ⟨hR6, List.nodup_singleton _, ?_⟩
      intro a ha hb
      rcases List.mem_singleton.1 hb with rfl
      obtain ⟨p, hp, hpk⟩ := List.mem_map.1 ha
      have := (hRm p hp).2.2.1
      omega
    · -- RelOK
      intro id r hr
      by_cases hid : id < s.arena.length
      · rw [hold id hid] at hr
        obtain ⟨h1, h2, h3, h4⟩ := hrel id r hr
        rw [hold r.table h3]
        refine ⟨h1, h2, by omega, lookup_append_some h4⟩
      · by_cases hid2 : id = s.arena.length
        · subst hid2
          rw [hnew] at hr
          exact absurd hr (List.not_mem_nil r)
        · rw [hgetT id hid hid2] at hr
          rw [getT_big (Nat.le_of_not_lt hid)] at hr
          exact absurd hr (List.not_mem_nil r)
    · -- Z
      intro id hc
      by_cases hid : id < s.arena.length
      · rw [hold id hid] at hc ⊢
        exact hZ id hc
      · by_cases hid2 : id = s.arena.length
        · subst hid2; rw [hnew]
        · rw [hgetT id hid hid2] at hc ⊢
          exact hZ id hc
    · -- D
      intro id hidP hc
      by_cases hid : id < s.arena.length
      · rw [hold id hid] at hc ⊢
        obtain ⟨hd1, hd2⟩ := hD id hidP hc
        constructor
        · rw [relView_congr hnames (fun r hr => (hrel id r hr).2.2.1), hd1]
        · intro r hr
          rw [hold r.table (hrel id r hr).2.2.1]
          exact hd2 r hr
      · by_cases hid2 : id = s.arena.length
        · subst hid2
          rw [hnew] at hc
          exact absurd hc (by intro h; exact Bool.noConfusion h)
        · rw [hgetT id hid hid2] at hc
          rw [getT_big (Nat.le_of_not_lt hid)] at hc
          exact absurd hc (by intro h; exact Bool.noConfusion h)
    · -- PC
      intro id hid
      have hc := hPC id hid
      have hlt := collected_lt hc
      rw [hold id hlt]
      exact hc
    · -- lookup of n
      show List.lookup n (s.registry ++ [(n, s.arena.length)]) = some s.arena.length
      rw [List.lookup_append, hlk]
      show List.lookup n [(n, s.arena.length)] = some s.arena.length
      rw [List.lookup_cons]
      simp
    · -- 1 ≤ new id
      omega
    · -- new id in range
      omega
    · -- name of new id
      rw [hnew]
  · -- the name is already registered
    have hfst : (tableFor s n).1 = id := by simp [tableFor, hlk]
    have hsnd : (tableFor s n).2 = s := by simp [tableFor, hlk]
    rw [hfst, hsnd]
    have hmem := lookup_mem hlk
    obtain ⟨h1, h2, h3, _⟩ := hRm (n, id) hmem
    exact ⟨⟨⟨hR2, hRm, hR4, hR6⟩, hrel, hZ, hD, hPC⟩, evolves_refl s, hlk, h2, h3, h1,
      fun j _ => rfl⟩

theorem relView_pushRel (s : BuildState) (id : Nat) (r r' : TableRelation) :
    relView (pushRel s id r) r' = relView s r' := by
  unfold relView
  rw [name_pushRel]

theorem relView_mark (s : BuildState) (id : Nat) (r' : TableRelation) :
    relView (markCollected s id) r' = relView s r' := by
  unfold relView
  rw [name_mark]

theorem CSet_pushRel (s : BuildState) (id : Nat) (r : TableRelation) :
    CSet (pushRel s id r) = CSet s := by
  ext j
  rw [mem_CSet, mem_CSet, length_pushRel, collected_pushRel]

theorem name_mem_allNames {edges : List RelationRecord} {e : RelationRecord}
    (h : e ∈ edges) : e.name ∈ allNames edges :=
  List.mem_dedup.2 (List.mem_append_left _ (List.mem_map_of_mem _ h))

theorem table_mem_allNames {edges : List RelationRecord} {e : RelationRecord}
    (h : e ∈ edges) : e.table ∈ allNames edges :=
  List.mem_dedup.2 (List.mem_append_right _ (List.mem_map_of_mem _ h))

theorem canonRels_single_child {e : RelationRecord} {n : String} (h : e.name = n) :
    canonRels [e] n = [(Owner.parent, e.table, decide (e.on_delete = "CASCADE"))] := by
  simp [canonRels, h]

theorem canonRels_single_parent {e : RelationRecord} {n : String}
    (h1 : ¬ e.name = n) (h2 : e.table = n) :
    canonRels [e] n = [(Owner.self, e.name, decide (e.on_delete = "CASCADE"))] := by
  simp [canonRels, h1, h2]

theorem canonRels_single_none {e : RelationRecord} {n : String}
    (h1 : ¬ e.name = n) (h2 : ¬ e.table = n) : canonRels [e] n = [] := by
  simp [canonRels, h1, h2]

theorem pushRel_inv {edges : List RelationRecord} {s : BuildState} {P : List Nat}
    {id : Nat} {r : TableRelation} (hinv : Inv edges s (id :: P))
    (hid : id < s.arena.length) (hpar : r.parent = id) (h1 : 1 ≤ r.table)
    (h2 : r.table < s.arena.length)
    (hlkb : s.registry.lookup ((getT s r.table).name) = some r.table) :
    Inv edges (pushRel s id r) (id :: P) := by
  obtain ⟨⟨hR2, hRm, hR4, hR6⟩, hrel, hZ, hD, hPC⟩ := hinv
  have hcolid : (getT s id).collected = true := hPC id (List.mem_cons_self id P)
  refine ⟨⟨?_, ?_, ?_, ?_⟩, ?_, ?_, ?_, ?_⟩
  · rw [length_pushRel, registry_pushRel]; exact hR2
  · intro p hp
    rw [registry_pushRel] at hp
    obtain ⟨hp1, hp2, hp3, hp4⟩ := hRm p hp
    rw [length_pushRel, name_pushRel]
    exact ⟨hp1, hp2, hp3, hp4⟩
  · rw [registry_pushRel]; exact hR4
  · rw [registry_pushRel]; exact hR6
  · -- RelOK
    intro j r' hr'
    rw [length_pushRel, registry_pushRel, name_pushRel]
    by_cases hij : id = j
    · subst hij
      rw [getT_pushRel_self hid] at hr'
      simp only at hr'
      rcases List.mem_append.1 hr' with hr' | hr'
      · exact hrel id r' hr'
      · rcases List.mem_singleton.1 hr' with rfl
        exact ⟨hpar, h1, h2, hlkb⟩
    · rw [getT_pushRel_ne hij] at hr'
      exact hrel j r' hr'
  · -- Z
    intro j hc
    by_cases hij : id = j
    · subst hij
      rw [collected_pushRel, hcolid] at hc
      exact Bool.noConfusion hc
    · rw [getT_pushRel_ne hij] at hc ⊢
      exact hZ j hc
  · -- D
    intro j hjP hc
    have hij : id ≠ j := fun he => hjP (he ▸ List.mem_cons_self id P)
    rw [getT_pushRel_ne hij] at hc ⊢
    obtain ⟨hd1, hd2⟩ := hD j hjP hc
    constructor
    · rw [List.map_congr_left (fun x _ => relView_pushRel s id r x), hd1]
    · intro r' hr'
      rw [collected_pushRel]
      exact hd2 r' hr'
  · -- in-progress tables stay collected
    intro j hj
    rw [collected_pushRel]
    exact hPC j hj

theorem mark_inv {edges : List RelationRecord} {s : BuildState} {P : List Nat}
    {id : Nat} (hinv : Inv edges s P) (hid : id < s.arena.length) :
    Inv edges (markCollected s id) (id :: P) := by
  obtain ⟨⟨hR2, hRm, hR4, hR6⟩, hrel, hZ, hD, hPC⟩ := hinv
  refine ⟨⟨?_, ?_, ?_, ?_⟩, ?_, ?_, ?_, ?_⟩
  · rw [length_mark, registry_mark]; exact hR2
  · intro p hp
    rw [registry_mark] at hp
    obtain ⟨hp1, hp2, hp3, hp4⟩ := hRm p hp
    rw [length_mark, name_mark]
    exact ⟨hp1, hp2, hp3, hp4⟩
  · rw [registry_mark]; exact hR4
  · rw [registry_mark]; exact hR6
  · intro j r' hr'
    rw [length_mark, registry_mark, name_mark, relations_mark] at *
    exact hrel j r' hr'
  · intro j hc
    by_cases hij : id = j
    · subst hij
      rw [getT_mark_self hid] at hc
      exact Bool.noConfusion hc
    · rw [getT_mark_ne hij] at hc ⊢
      exact hZ j hc
  · intro j hjP hc
    have hjP' : j ∉ P := fun hj => hjP (List.mem_cons_of_mem id hj)
    have hij : id ≠ j := fun he => hjP (he ▸ List.mem_cons_self id P)
    rw [getT_mark_ne hij] at hc ⊢
    obtain ⟨hd1, hd2⟩ := hD j hjP' hc
    constructor
    · rw [List.map_congr_left (fun x _ => relView_mark s id x), hd1]
    · intro r' hr'
      exact collected_mark_mono (hd2 r' hr')
  · intro j hj
    rcases List.mem_cons.1 hj with hj | hj
    · subst hj
      rw [getT_mark_self hid]
    · exact collected_mark_mono (hPC j hj)

theorem collect_push_step {edges : List RelationRecord} {P : List Nat} {id : Nat}
    {base : BuildState} {rec1 rec2 : BuildState → Nat → BuildState}
    (hrec : ∀ s' id', Inv edges s' (id :: P) → id' < s'.arena.length →
      CSet base ⊆ CSet s' →
      rec1 s' id' = rec2 s' id' ∧ Inv edges (rec1 s' id') (id :: P) ∧
      Evolves s' (rec1 s' id') ∧ (getT (rec1 s' id') id').collected = true)
    {s : BuildState} {k : String} {o : Owner} {c : Bool}
    (hk : k ∈ allNames edges)
    (hinv : Inv edges s (id :: P)) (hid : id < s.arena.length)
    (hcs : CSet base ⊆ CSet s)
    (htc : ∀ r ∈ (getT s id).relations, (getT s r.table).collected = true)
    (hEX : EvolvesX id base s) :
    rec1 (pushRel (tableFor s k).2 id ⟨id, o, (tableFor s k).1, c⟩) (tableFor s k).1 =
      rec2 (pushRel (tableFor s k).2 id ⟨id, o, (tableFor s k).1, c⟩)
        (tableFor s k).1 ∧
    Inv edges (rec1 (pushRel (tableFor s k).2 id ⟨id, o, (tableFor s k).1, c⟩)
      (tableFor s k).1) (id :: P) ∧
    id < (rec1 (pushRel (tableFor s k).2 id ⟨id, o, (tableFor s k).1, c⟩)
      (tableFor s k).1).arena.length ∧
    CSet base ⊆ CSet (rec1 (pushRel (tableFor s k).2 id
      ⟨id, o, (tableFor s k).1, c⟩) (tableFor s k).1) ∧
    (getT (rec1 (pushRel (tableFor s k).2 id ⟨id, o, (tableFor s k).1, c⟩)
      (tableFor s k).1) id).collected = true ∧
    ((getT (rec1 (pushRel (tableFor s k).2 id ⟨id, o, (tableFor s k).1, c⟩)
        (tableFor s k).1) id).relations.map
      (relView (rec1 (pushRel (tableFor s k).2 id ⟨id, o, (tableFor s k).1, c⟩)
        (tableFor s k).1)) =
      (getT s id).relations.map (relView s) ++ [(o, k, c)]) ∧
    (∀ r ∈ (getT (rec1 (pushRel (tableFor s k).2 id
        ⟨id, o, (tableFor s k).1, c⟩) (tableFor s k).1) id).relations,
      (getT (rec1 (pushRel (tableFor s k).2 id ⟨id, o, (tableFor s k).1, c⟩)
        (tableFor s k).1) r.table).collected = true) ∧
    (getT (rec1 (pushRel (tableFor s k).2 id ⟨id, o, (tableFor s k).1, c⟩)
      (tableFor s k).1) id).name = (getT s id).name ∧
    EvolvesX id base (rec1 (pushRel (tableFor s k).2 id
      ⟨id, o, (tableFor s k).1, c⟩) (tableFor s k).1) := by
  have hPCs : (getT s id).collected = true :=
    hinv.2.2.2.2 id (List.mem_cons_self id P)
  have hRelOKs : RelOK s := hinv.2.1
  obtain ⟨hinv_a, hev_a, hlk_a, h1_a, h2_a, hname_a, hold_a⟩ := tableFor_inv hinv hk
  set tid := (tableFor s k).1 with htid
  set sa := (tableFor s k).2 with hsa
  set rel : TableRelation := ⟨id, o, tid, c⟩ with hrel
  set sb := pushRel sa id rel with hsb
  have hlen_ab : sb.arena.length = sa.arena.length := length_pushRel ..
  have hid_a : id < sa.arena.length := Nat.lt_of_lt_of_le hid hev_a.1.1
  have hcol_a : (getT sa id).collected = true := hev_a.1.2.2.2 id hPCs
  have hcol_b : (getT sb id).collected = true := by
    rw [hsb, collected_pushRel]; exact hcol_a
  have hinv_b : Inv edges sb (id :: P) := by
    refine pushRel_inv hinv_a hid_a rfl h1_a h2_a ?_
    rw [hname_a]
    exact hlk_a
  have hcs_b : CSet base ⊆ CSet sb := by
    rw [hsb, CSet_pushRel]
    exact fun x hx => CSet_mono hev_a.1 (hcs hx)
  have htid_b : tid < sb.arena.length := by rw [hlen_ab]; exact h2_a
  obtain ⟨heq, hinv_c, hev_c, hcol_c⟩ := hrec sb tid hinv_b htid_b hcs_b
  set sc := rec1 sb tid with hsc
  have hid_c : id < sc.arena.length :=
    Nat.lt_of_lt_of_le (hlen_ab ▸ hid_a) hev_c.1.1
  have hcol_idc : (getT sc id).collected = true := hev_c.1.2.2.2 id hcol_b
  have hrels_b : (getT sb id).relations = (getT s id).relations ++ [rel] := by
    rw [hsb, getT_pushRel_self hid_a, hold_a id hid]
  have hrels_c : (getT sc id).relations = (getT s id).relations ++ [rel] := by
    rw [hev_c.2 id hcol_b, hrels_b]
  have hname_c : (getT sc id).name = (getT s id).name := by
    rw [hev_c.1.2.2.1 id (hlen_ab ▸ hid_a), hsb, name_pushRel, hold_a id hid]
  refine ⟨heq, hinv_c, hid_c, ?_, hcol_idc, ?_, ?_, hname_c, ?_⟩
  · exact fun x hx => CSet_mono hev_c.1 (hcs_b hx)
  · -- the canonical relation view grows by exactly one entry
    have hmap1 : (getT sc id).relations.map (relView sc) =
        (getT sc id).relations.map (relView sb) := by
      refine relView_congr ?_ ?_
      · exact hev_c.1.2.2.1
      · intro r hr
        rw [hev_c.2 id hcol_b] at hr
        exact (hinv_b.2.1 id r hr).2.2.1
    rw [hmap1, hrels_c, List.map_append]
    have hmap2 : (getT s id).relations.map (relView sb) =
        (getT s id).relations.map (relView s) := by
      have hmid : (getT s id).relations.map (relView sb) =
          (getT s id).relations.map (relView sa) :=
        List.map_congr_left (fun x _ => by rw [hsb]; exact relView_pushRel sa id rel x)
      rw [hmid]
      refine relView_congr ?_ ?_
      · intro j hj; rw [hold_a j hj]
      · intro r hr
        exact (hRelOKs id r hr).2.2.1
    rw [hmap2]
    have hrelv : relView sb rel = (o, k, c) := by
      unfold relView
      rw [hrel]
      simp only
      rw [hsb, name_pushRel, hname_a]
    rw [List.map_singleton, hrelv]
  · -- all targets collected
    intro r hr
    rw [hrels_c] at hr
    rcases List.mem_append.1 hr with hr | hr
    · have h1 : (getT s r.table).collected = true := htc r hr
      have h2 : (getT sa r.table).collected = true := hev_a.1.2.2.2 _ h1
      have h3 : (getT sb r.table).collected = true := by
        rw [hsb, collected_pushRel]; exact h2
      exact hev_c.1.2.2.2 _ h3
    · rcases List.mem_singleton.1 hr with rfl
      exact hcol_c
  · exact evolvesX_trans
      (evolvesX_trans (evolvesX_trans hEX (evolves_toX id hev_a))
        (hsb ▸ evolvesX_pushRel sa id rel))
      (evolves_toX id hev_c)

theorem collect_fold {edges : List RelationRecord} {P : List Nat} {id : Nat}
    {base : BuildState} {rec1 rec2 : BuildState → Nat → BuildState}
    (hrec : ∀ s' id', Inv edges s' (id :: P) → id' < s'.arena.length →
      CSet base ⊆ CSet s' →
      rec1 s' id' = rec2 s' id' ∧ Inv edges (rec1 s' id') (id :: P) ∧
      Evolves s' (rec1 s' id') ∧ (getT (rec1 s' id') id').collected = true) :
    ∀ (suf pre : List RelationRecord), edges = pre ++ suf →
      ∀ s : BuildState, Inv edges s (id :: P) → id < s.arena.length →
      CSet base ⊆ CSet s →
      (getT s id).relations.map (relView s) = canonRels pre ((getT s id).name) →
      (∀ r ∈ (getT s id).relations, (getT s r.table).collected = true) →
      EvolvesX id base s →
      List.foldl (collectEdge rec1 id) s suf =
        List.foldl (collectEdge rec2 id) s suf ∧
      Inv edges (List.foldl (collectEdge rec1 id) s suf) (id :: P) ∧
      id < (List.foldl (collectEdge rec1 id) s suf).arena.length ∧
      CSet base ⊆ CSet (List.foldl (collectEdge rec1 id) s suf) ∧
      ((getT (List.foldl (collectEdge rec1 id) s suf) id).relations.map
          (relView (List.foldl (collectEdge rec1 id) s suf)) =
        canonRels edges ((getT (List.foldl (collectEdge rec1 id) s suf) id).name)) ∧
      (∀ r ∈ (getT (List.foldl (collectEdge rec1 id) s suf) id).relations,
        (getT (List.foldl (collectEdge rec1 id) s suf) r.table).collected = true) ∧
      EvolvesX id base (List.foldl (collectEdge rec1 id) s suf) := by
  intro suf
  induction suf with
  | nil =>
      intro pre h s hinv hid hcs hcanon htc hEX
      rw [List.append_nil] at h
      subst h
      exact ⟨rfl, hinv, hid, hcs, hcanon, htc, hEX⟩
  | cons e suf ih =>
      intro pre h s hinv hid hcs hcanon htc hEX
      have hemem : e ∈ edges := by
        rw [h]
        exact List.mem_append_right _ (List.mem_cons_self e suf)
      have hpre' : edges = (pre ++ [e]) ++ suf := by
        rw [h, List.append_assoc]
        rfl
      rw [List.foldl_cons, List.foldl_cons]
      by_cases hne : e.name = (getT s id).name
      · have hstep1 : collectEdge rec1 id s e =
            rec1 (pushRel (tableFor s e.table).2 id
              ⟨id, Owner.parent, (tableFor s e.table).1,
                decide (e.on_delete = "CASCADE")⟩) (tableFor s e.table).1 := by
          simp only [collectEdge, if_pos hne]
        have hstep2 : collectEdge rec2 id s e =
            rec2 (pushRel (tableFor s e.table).2 id
              ⟨id, Owner.parent, (tableFor s e.table).1,
                decide (e.on_delete = "CASCADE")⟩) (tableFor s e.table).1 := by
          simp only [collectEdge, if_pos hne]
        obtain ⟨heq, hinv_c, hid_c, hcs_c, _, hmap_c, htc_c, hname_c, hEX_c⟩ :=
          collect_push_step hrec (table_mem_allNames hemem) hinv hid hcs htc hEX
            (o := Owner.parent) (c := decide (e.on_delete = "CASCADE"))
        rw [hstep1, hstep2, ← heq]
        have hcanon_c : (getT (rec1 (pushRel (tableFor s e.table).2 id
            ⟨id, Owner.parent, (tableFor s e.table).1,
              decide (e.on_delete = "CASCADE")⟩) (tableFor s e.table).1) id).relations.map
            (relView (rec1 (pushRel (tableFor s e.table).2 id
              ⟨id, Owner.parent, (tableFor s e.table).1,
                decide (e.on_delete = "CASCADE")⟩) (tableFor s e.table).1)) =
            canonRels (pre ++ [e]) ((getT (rec1 (pushRel (tableFor s e.table).2 id
              ⟨id, Owner.parent, (tableFor s e.table).1,
                decide (e.on_delete = "CASCADE")⟩) (tableFor s e.table).1) id).name) := by
          rw [hmap_c, hname_c, canonRels_append, hcanon, canonRels_single_child hne]
        exact ih (pre ++ [e]) hpre' _ hinv_c hid_c hcs_c hcanon_c htc_c hEX_c
      · by_cases hnt : e.table = (getT s id).name
        · have hstep1 : collectEdge rec1 id s e =
              rec1 (pushRel (tableFor s e.name).2 id
                ⟨id, Owner.self, (tableFor s e.name).1,
                  decide (e.on_delete = "CASCADE")⟩) (tableFor s e.name).1 := by
            simp only [collectEdge, if_neg hne, if_pos hnt]
          have hstep2 : collectEdge rec2 id s e =
              rec2 (pushRel (tableFor s e.name).2 id
                ⟨id, Owner.self, (tableFor s e.name).1,
                  decide (e.on_delete = "CASCADE")⟩) (tableFor s e.name).1 := by
            simp only [collectEdge, if_neg hne, if_pos hnt]
          obtain ⟨heq, hinv_c, hid_c, hcs_c, _, hmap_c, htc_c, hname_c, hEX_c⟩ :=
            collect_push_step hrec (name_mem_allNames hemem) hinv hid hcs htc hEX
              (o := Owner.self) (c := decide (e.on_delete = "CASCADE"))
          rw [hstep1, hstep2, ← heq]
          have hcanon_c : (getT (rec1 (pushRel (tableFor s e.name).2 id
              ⟨id, Owner.self, (tableFor s e.name).1,
                decide (e.on_delete = "CASCADE")⟩) (tableFor s e.name).1) id).relations.map
              (relView (rec1 (pushRel (tableFor s e.name).2 id
                ⟨id, Owner.self, (tableFor s e.name).1,
                  decide (e.on_delete = "CASCADE")⟩) (tableFor s e.name).1)) =
              canonRels (pre ++ [e]) ((getT (rec1 (pushRel (tableFor s e.name).2 id
                ⟨id, Owner.self, (tableFor s e.name).1,
                  decide (e.on_delete = "CASCADE")⟩) (tableFor s e.name).1) id).name) := by
            rw [hmap_c, hname_c, canonRels_append, hcanon,
              canonRels_single_parent hne hnt]
          exact ih (pre ++ [e]) hpre' _ hinv_c hid_c hcs_c hcanon_c htc_c hEX_c
        · have hstep1 : collectEdge rec1 id s e = s := by
            simp only [collectEdge, if_neg hne, if_neg hnt]
          have hstep2 : collectEdge rec2 id s e = s := by
            simp only [collectEdge, if_neg hne, if_neg hnt]
          rw [hstep1, hstep2]
          have hcanon' : (getT s id).relations.map (relView s) =
              canonRels (pre ++ [e]) ((getT s id).name) := by
            rw [canonRels_append, hcanon, canonRels_single_none hne hnt,
              List.append_nil]
          exact ih (pre ++ [e]) hpre' s hinv hid hcs hcanon' htc hEX

theorem evolvesX_refl (x : Nat) (s : BuildState) : EvolvesX x s s :=
  ⟨evolveCore_refl s, fun _ _ _ => rfl⟩

theorem collectStep_collected {edges : List RelationRecord} {s : BuildState}
    {id : Nat} (h : (getT s id).collected = true) (fuel : Nat) :
    collectStep edges fuel s id = s := by
  cases fuel with
  | zero => rfl
  | succ fuel => simp [collectStep, h]

theorem second_fold_id {edges : List RelationRecord} (fuel : Nat) :
    ∀ (rels : List TableRelation) (s : BuildState),
      (∀ r ∈ rels, (getT s r.table).collected = true) →
      rels.foldl (fun s3 r => collectStep edges fuel s3 r.table) s = s := by
  intro rels
  induction rels with
  | nil => intro s _; rfl
  | cons r rs ih =>
      intro s htc
      rw [List.foldl_cons,
        collectStep_collected (htc r (List.mem_cons_self r rs)) fuel]
      exact ih s (fun x hx => htc x (List.mem_cons_of_mem r hx))

theorem nodup_subset_length {l1 l2 : List String} (h1 : l1.Nodup)
    (hsub : ∀ a ∈ l1, a ∈ l2) : l1.length ≤ l2.length := by
  rw [← List.toFinset_card_of_nodup h1]
  refine Nat.le_trans (Finset.card_le_card ?_) (List.toFinset_card_le l2)
  intro x hx
  rw [List.mem_toFinset] at hx ⊢
  exact hsub x hx

theorem len_le_of_RegOK {edges : List RelationRecord} {s : BuildState}
    (hreg : RegOK edges s) : s.arena.length ≤ (allNames edges).length + 1 := by
  obtain ⟨hR2, hRm, hR4, _⟩ := hreg
  have h1 : (s.registry.map Prod.fst).length ≤ (allNames edges).length := by
    refine nodup_subset_length hR4 ?_
    intro a ha
    obtain ⟨p, hp, hpa⟩ := List.mem_map.1 ha
    exact hpa ▸ (hRm p hp).2.2.2
  rw [List.length_map] at h1
  omega

theorem collectStep_succ (edges : List RelationRecord) (fuel : Nat) (s : BuildState)
    (id : Nat) (h : ¬ (getT s id).collected = true) :
    collectStep edges (fuel + 1) s id =
      (getT (List.foldl (collectEdge (collectStep edges fuel) id)
        (markCollected s id) edges) id).relations.foldl
        (fun s3 r => collectStep edges fuel s3 r.table)
        (List.foldl (collectEdge (collectStep edges fuel) id)
          (markCollected s id) edges) := by
  simp only [collectStep, if_neg h]

theorem collect_spec_eq (edges : List RelationRecord) :
    ∀ (fuel : Nat) (s : BuildState) (id : Nat) (P : List Nat),
      Inv edges s P → id < s.arena.length →
      (allNames edges).length + 2 ≤ (CSet s).card + fuel →
      collectStep edges fuel s id = collectStep edges (fuel + 1) s id ∧
      Inv edges (collectStep edges fuel s id) P ∧
      Evolves s (collectStep edges fuel s id) ∧
      (getT (collectStep edges fuel s id) id).collected = true := by
  intro fuel
  induction fuel with
  | zero =>
      intro s id P hinv _ hb
      have h1 := CSet_card_le s
      have h2 := len_le_of_RegOK hinv.1
      omega
  | succ g ih =>
      intro s id P hinv hid hb
      by_cases hcol : (getT s id).collected = true
      · rw [collectStep_collected hcol (g + 1), collectStep_collected hcol (g + 2)]
        exact ⟨rfl, hinv, evolves_refl s, hcol⟩
      · have hcolf : (getT s id).collected = false := by
          cases hc : (getT s id).collected
          · rfl
          · exact absurd hc hcol
        have hcard : (CSet (markCollected s id)).card = (CSet s).card + 1 :=
          CSet_card_mark hid hcolf
        have hrec : ∀ s' id', Inv edges s' (id :: P) → id' < s'.arena.length →
            CSet (markCollected s id) ⊆ CSet s' →
            collectStep edges g s' id' = collectStep edges (g + 1) s' id' ∧
            Inv edges (collectStep edges g s' id') (id :: P) ∧
            Evolves s' (collectStep edges g s' id') ∧
            (getT (collectStep edges g s' id') id').collected = true := by
          intro s' id' hinv' hid' hcs'
          refine ih s' id' (id :: P) hinv' hid' ?_
          have hc1 : (CSet (markCollected s id)).card ≤ (CSet s').card :=
            Finset.card_le_card hcs'
          omega
        have hinv_base : Inv edges (markCollected s id) (id :: P) :=
          mark_inv hinv hid
        have hid_base : id < (markCollected s id).arena.length := by
          rw [length_mark]; exact hid
        have hrels_base : (getT (markCollected s id) id).relations = [] := by
          rw [relations_mark]
          exact hinv.2.2.1 id hcolf
        have hcanon_base : (getT (markCollected s id) id).relations.map
            (relView (markCollected s id)) =
            canonRels [] ((getT (markCollected s id) id).name) := by
          rw [hrels_base]
          rfl
        have htc_base : ∀ r ∈ (getT (markCollected s id) id).relations,
            (getT (markCollected s id) r.table).collected = true := by
          rw [hrels_base]
          intro r hr
          exact absurd hr (List.not_mem_nil r)
        obtain ⟨hfeq, hinv2, hid2, _, hcanon2, htc2, hEX2⟩ :=
          collect_fold hrec edges [] (List.nil_append edges).symm
            (markCollected s id) hinv_base hid_base
            (fun x hx => hx) hcanon_base htc_base
            (evolvesX_refl id (markCollected s id))
        set s2 := List.foldl (collectEdge (collectStep edges g) id)
          (markCollected s id) edges with hs2
        have hcolid2 : (getT s2 id).collected = true :=
          hinv2.2.2.2.2 id (List.mem_cons_self id P)
        have hunf1 : collectStep edges (g + 1) s id =
            (getT s2 id).relations.foldl
              (fun s3 r => collectStep edges g s3 r.table) s2 :=
          collectStep_succ edges g s id hcol
        have hunf2 : collectStep edges (g + 2) s id =
            (getT s2 id).relations.foldl
              (fun s3 r => collectStep edges (g + 1) s3 r.table) s2 := by
          rw [collectStep_succ edges (g + 1) s id hcol, ← hfeq]
        rw [hunf1, hunf2, second_fold_id g _ s2 htc2, second_fold_id (g + 1) _ s2 htc2]
        have hinvP : Inv edges s2 P := by
          obtain ⟨i1, i2, i3, i4, i5⟩ := hinv2
          refine ⟨i1, i2, i3, ?_, ?_⟩
          · intro j hjP hc
            by_cases hij : j = id
            · subst hij
              exact ⟨hcanon2, htc2⟩
            · refine i4 j ?_ hc
              intro hjm
              rcases List.mem_cons.1 hjm with hjm | hjm
              · exact hij hjm
              · exact hjP hjm
          · intro j hj
            exact i5 j (List.mem_cons_of_mem id hj)
        have hev : Evolves s s2 := by
          refine evolvesX_toEvolves ?_ hcolf
          exact evolvesX_trans (evolves_toX id (evolves_mark s id)) hEX2
        exact ⟨rfl, hinvP, hev, hcolid2⟩

theorem getT_init_zero (target : String) :
    getT (initState target) 0 = ⟨target, [], false⟩ := rfl

theorem length_init (target : String) : (initState target).arena.length = 1 := rfl

theorem getT_init_big (target : String) {j : Nat} (h : 1 ≤ j) :
    getT (initState target) j = emptyTable :=
  getT_big (by rw [length_init]; exact h)

theorem inv_init (edges : List RelationRecord) (target : String) :
    Inv edges (initState target) [] := by
  have hg : ∀ id : Nat, (getT (initState target) id).relations = [] := by
    intro id
    cases id with
    | zero => rfl
    | succ j => rw [getT_init_big target (by omega)]; rfl
  have hc : ∀ id : Nat, (getT (initState target) id).collected = false := by
    intro id
    cases id with
    | zero => rfl
    | succ j => rw [getT_init_big target (by omega)]; rfl
  refine ⟨⟨rfl, ?_, ?_, ?_⟩, ?_, ?_, ?_, ?_⟩
  · intro p hp; exact absurd hp (List.not_mem_nil p)
  · exact List.nodup_nil
  · exact List.nodup_nil
  · intro id r hr
    rw [hg id] at hr
    exact absurd hr (List.not_mem_nil r)
  · intro id _; exact hg id
  · intro id _ hcol
    rw [hc id] at hcol
    exact Bool.noConfusion hcol
  · intro id hid; exact absurd hid (List.not_mem_nil id)

theorem CSet_init (target : String) : CSet (initState target) = ∅ := by
  ext j
  rw [mem_CSet]
  simp only [Finset.not_mem_empty, iff_false]
  intro hj
  obtain ⟨hj1, hj2⟩ := hj
  rw [length_init] at hj1
  have hj0 : j = 0 := by omega
  subst hj0
  rw [getT_init_zero] at hj2
  exact Bool.noConfusion hj2

theorem build_inv (edges : List RelationRecord) (target : String) :
    Inv edges (build edges target) [] ∧
    Evolves (initState target) (build edges target) ∧
    (getT (build edges target) 0).collected = true := by
  have h := collect_spec_eq edges (buildFuel edges) (initState target) 0 []
    (inv_init edges target) (by rw [length_init]; omega)
    (by rw [CSet_init, Finset.card_empty, buildFuel]; omega)
  exact ⟨h.2.1, h.2.2.1, h.2.2.2⟩

theorem built_ok (edges : List RelationRecord) (target : String) :
    BuiltOK edges target (build edges target) := by
  obtain ⟨hinv, hev, hcol⟩ := build_inv edges target
  have hlen : 1 ≤ (build edges target).arena.length := by
    have h1 := hev.1.1
    rw [length_init] at h1
    exact h1
  refine ⟨?_, ?_, by omega, hcol, ?_⟩
  · intro id r hr
    obtain ⟨h1, _, h3, _⟩ := hinv.2.1 id r hr
    exact ⟨h1, h3⟩
  · intro id hc
    exact hinv.2.2.2.1 id (List.not_mem_nil id) hc
  · rw [hev.1.2.2.1 0 (by rw [length_init]; omega), getT_init_zero]

theorem collect_stable (edges : List RelationRecord) (target : String) :
    ∀ k : Nat, collectStep edges (buildFuel edges + k) (initState target) 0 =
      build edges target := by
  intro k
  induction k with
  | zero => rfl
  | succ k ih =>
      have h := collect_spec_eq edges (buildFuel edges + k) (initState target) 0 []
        (inv_init edges target) (by rw [length_init]; omega)
        (by rw [CSet_init, Finset.card_empty, buildFuel]; omega)
      show collectStep edges ((buildFuel edges + k) + 1) (initState target) 0 =
        build edges target
      rw [← h.1]
      exact ih

theorem canon_self_entry {edges : List RelationRecord} {n m : String} {c : Bool}
    (h : (Owner.self, m, c) ∈ canonRels edges n) :
    ∃ e ∈ edges, ¬ e.name = n ∧ e.table = n ∧ e.name = m ∧
      decide (e.on_delete = "CASCADE") = c := by
  obtain ⟨e, he, hfe⟩ := List.mem_filterMap.1 h
  by_cases h1 : e.name = n
  · rw [if_pos h1] at hfe
    injection hfe with hfe
    injection hfe with hfe _
    exact absurd hfe (by intro hcon; exact Owner.noConfusion hcon)
  · by_cases h2 : e.table = n
    · rw [if_neg h1, if_pos h2] at hfe
      injection hfe with hfe
      injection hfe with _ hfe
      injection hfe with hm hc
      exact ⟨e, he, h1, h2, hm, hc⟩
    · rw [if_neg h1, if_neg h2] at hfe
      exact absurd hfe (by simp)

theorem canon_mem_of_edge {edges : List RelationRecord} {e : RelationRecord}
    {n : String} (he : e ∈ edges) (h1 : ¬ e.name = n) (h2 : e.table = n) :
    (Owner.self, e.name, decide (e.on_delete = "CASCADE")) ∈ canonRels edges n :=
  List.mem_filterMap.2 ⟨e, he, by rw [if_neg h1, if_pos h2]⟩

theorem idReach_to_ReachC {edges : List RelationRecord} {bs : BuildState}
    (hco : CollectedOK edges bs) {a b : Nat}
    (hcola : (getT bs a).collected = true) (hr : IdReach bs a b) :
    ReachC edges ((getT bs a).name) ((getT bs b).name) ∧
    (getT bs b).collected = true := by
  induction hr with
  | refl => exact ⟨ReachC.refl _, hcola⟩
  | step r hr2 hmem howner hcasc ih =>
      rename_i y
      obtain ⟨hreach, hcoly⟩ := ih
      obtain ⟨hd1, hd2⟩ := hco y hcoly
      have hv : relView bs r ∈ canonRels edges ((getT bs y).name) := by
        rw [← hd1]
        exact List.mem_map_of_mem _ hmem
      have hv2 : (Owner.self, (getT bs r.table).name, r.cascades) ∈
          canonRels edges ((getT bs y).name) := by
        rw [← howner]
        exact hv
      obtain ⟨e, he, he1, he2, he3, he4⟩ := canon_self_entry hv2
      rw [hcasc] at he4
      have hcd : e.on_delete = "CASCADE" := of_decide_eq_true he4
      refine ⟨?_, hd2 r hmem⟩
      rw [← he3]
      exact ReachC.step e hreach he he2 hcd

theorem reach_visited {edges : List RelationRecord} {target : String}
    {bs : BuildState} (hbo : BuiltOK edges target bs)
    {C : List Nat} (h0 : 0 ∈ C) (hA : ∀ j ∈ C, GoodT bs j C) :
    ∀ b : String, ReachC edges target b →
      ∃ j ∈ C, (getT bs j).name = b ∧ (getT bs j).collected = true := by
  obtain ⟨hwf, hco, hlen, hcol0, hname0⟩ := hbo
  intro b hreach
  induction hreach with
  | refl => exact ⟨0, h0, hname0, hcol0⟩
  | step e hr he htab hcasc ih =>
      rename_i bmid
      obtain ⟨j, hjC, hjname, hjcol⟩ := ih
      by_cases hne : e.name = bmid
      · exact ⟨j, hjC, by rw [hjname, hne], hjcol⟩
      · have hentry : (Owner.self, e.name, decide (e.on_delete = "CASCADE")) ∈
            canonRels edges ((getT bs j).name) :=
          canon_mem_of_edge he (by rw [hjname]; exact hne)
            (by rw [hjname]; exact htab)
        have hdec : decide (e.on_delete = "CASCADE") = true := decide_eq_true hcasc
        rw [hdec] at hentry
        obtain ⟨hd1, hd2⟩ := hco j hjcol
        rw [← hd1] at hentry
        obtain ⟨r, hrmem, hrv⟩ := List.mem_map.1 hentry
        obtain ⟨ho, hnm, _⟩ := relView_eq_iff hrv
        obtain ⟨_, htabC⟩ := hA j hjC r hrmem ho
        exact ⟨r.table, htabC, hnm, hd2 r hrmem⟩

theorem nodup_bound {l : List Nat} {n : Nat} (hn : l.Nodup) (hb : ∀ j ∈ l, j < n) :
    l.length ≤ n := by
  have h1 : l.toFinset ⊆ Finset.range n := by
    intro x hx
    rw [List.mem_toFinset] at hx
    exact Finset.mem_range.2 (hb x hx)
  have h2 := Finset.card_le_card h1
  rw [List.toFinset_card_of_nodup hn, Finset.card_range] at h2
  exact h2

theorem GoodT_mono {bs : BuildState} {j : Nat} {C C' : List Nat}
    (h : GoodT bs j C) (hsub : ∀ x ∈ C, x ∈ C') : GoodT bs j C' :=
  fun r hr ho => ⟨(h r hr ho).1, hsub _ (h r hr ho).2⟩

theorem mem_of_ext {C C' : List Nat} (h : ∃ pre, C' = pre ++ C) :
    ∀ x ∈ C, x ∈ C' := by
  obtain ⟨pre, hp⟩ := h
  intro x hx
  rw [hp]
  exact List.mem_append_right pre hx

theorem fncLoop_complete {bs : BuildState} (hwf : RelsWF bs)
    {next : ProgState → Nat → Option SearchResult × ProgState}
    (hbs : ∀ st id, ((next st id).2).bs = st.bs) (fuelN : Nat)
    (hnext : ∀ st id, st.bs = bs → st.checked.Nodup →
      (∀ j ∈ st.checked, j < bs.arena.length) →
      bs.arena.length + 1 ≤ fuelN + st.checked.length →
      id < bs.arena.length → SPost bs st id (next st id)) :
    ∀ (rels : List TableRelation) (pid : Nat) (st : ProgState), st.bs = bs →
      (∀ r ∈ rels, r ∈ (getT bs pid).relations) →
      st.checked.Nodup → (∀ j ∈ st.checked, j < bs.arena.length) →
      bs.arena.length + 1 ≤ fuelN + st.checked.length →
      LPost bs st rels (fncLoop next rels st) := by
  intro rels
  induction rels with
  | nil =>
      intro pid st _ _ hnd hbd _
      refine ⟨⟨[], rfl⟩, hnd, hbd, ?_⟩
      intro _
      exact ⟨fun r hr => absurd hr (List.not_mem_nil r), fun j hj hj' => absurd hj hj'⟩
  | cons r rs ih =>
      intro pid st hst hsub hnd hbd hslack
      have hrmem : r ∈ (getT bs pid).relations := hsub r (List.mem_cons_self r rs)
      have hrsub : ∀ x ∈ rs, x ∈ (getT bs pid).relations :=
        fun x hx => hsub x (List.mem_cons_of_mem r hx)
      have hrtab : r.table < bs.arena.length := (hwf pid r hrmem).2
      simp only [fncLoop]
      split
      · rename r.owner = Owner.parent => hpar
        obtain ⟨e1, e2, e3, e4⟩ := ih pid st hst hrsub hnd hbd hslack
        refine ⟨e1, e2, e3, ?_⟩
        intro hnone
        obtain ⟨c1, c2⟩ := e4 hnone
        refine ⟨?_, c2⟩
        intro x hx ho
        rcases List.mem_cons.1 hx with hx | hx
        · subst hx; rw [hpar] at ho; exact absurd ho (by intro h; exact Owner.noConfusion h)
        · exact c1 x hx ho
      · split
        · refine ⟨⟨[], rfl⟩, hnd, hbd, ?_⟩
          intro hnone; exact absurd hnone (by simp)
        · rename ¬ r.cascades = false => hct
          have hcasc : r.cascades = true := by
            cases hb : r.cascades
            · exact absurd hb hct
            · rfl
          rcases hres : next st r.table with ⟨o, stm⟩
          have hsp := hnext st r.table hst hnd hbd (by omega) hrtab
          rw [hres] at hsp
          obtain ⟨p1, p2, p3, p4⟩ := hsp
          have hstm : stm.bs = bs := by
            have := hbs st r.table; rw [hres] at this; rw [this, hst]
          cases o with
          | some res0 =>
              refine ⟨p1, p2, p3, ?_⟩
              intro hnone; exact absurd hnone (by simp)
          | none =>
              obtain ⟨htabm, hnew1⟩ := p4 rfl
              have hlen : st.checked.length ≤ stm.checked.length := by
                obtain ⟨pre, hp⟩ := p1
                rw [hp, List.length_append]
                omega
              obtain ⟨e1, e2, e3, e4⟩ := ih pid stm hstm hrsub p2 p3 (by omega)
              refine ⟨?_, e2, e3, ?_⟩
              · obtain ⟨q1, hq1⟩ := e1
                obtain ⟨q2, hq2⟩ := p1
                exact ⟨q1 ++ q2, by rw [hq1, hq2, List.append_assoc]⟩
              · intro hnone
                obtain ⟨c1, c2⟩ := e4 hnone
                have hsubm := mem_of_ext e1
                refine ⟨?_, ?_⟩
                · intro x hx ho
                  rcases List.mem_cons.1 hx with hx | hx
                  · subst hx; exact ⟨hcasc, hsubm _ htabm⟩
                  · exact c1 x hx ho
                · intro j hj hj'
                  by_cases hjm : j ∈ stm.checked
                  · exact GoodT_mono (hnew1 j hjm hj') hsubm
                  · exact c2 j hj hjm

theorem fncFuel_complete : ∀ (fuel : Nat) (bs : BuildState), RelsWF bs →
    ∀ (st : ProgState) (id : Nat), st.bs = bs → st.checked.Nodup →
    (∀ j ∈ st.checked, j < bs.arena.length) →
    bs.arena.length + 1 ≤ fuel + st.checked.length →
    id < bs.arena.length →
    SPost bs st id (fncFuel fuel st id) := by
  intro fuel
  induction fuel with
  | zero =>
      intro bs _ st id _ hnd hbd hslack _
      have := nodup_bound hnd hbd
      omega
  | succ fuel ih =>
      intro bs hwf st id hst hnd hbd hslack hid
      simp only [fncFuel]
      split
      · rename id ∈ st.checked => hmem
        refine ⟨⟨[], rfl⟩, hnd, hbd, ?_⟩
        intro _
        exact ⟨hmem, fun j hj hj' => absurd hj hj'⟩
      · rename ¬ id ∈ st.checked => hmem
        have hrels : (getT st.bs id).relations = (getT bs id).relations := by rw [hst]
        rw [hrels]
        have hloop := fncLoop_complete hwf (fncFuel_bs fuel) fuel
          (fun st' id' h1 h2 h3 h4 h5 => ih bs hwf st' id' h1 h2 h3 h4 h5)
          (getT bs id).relations id ⟨bs, id :: st.checked⟩ rfl (fun r hr => hr)
          (List.nodup_cons.2 ⟨hmem, hnd⟩)
          ?_ ?_
        · obtain ⟨e1, e2, e3, e4⟩ := hloop
          have hstrew :
              (⟨bs, id :: st.checked⟩ : ProgState) = ⟨st.bs, id :: st.checked⟩ := by
            rw [hst]
          rw [hstrew] at e1 e2 e3 e4
          refine ⟨?_, e2, e3, ?_⟩
          · obtain ⟨q, hq⟩ := e1
            exact ⟨q ++ [id], by rw [hq, List.append_assoc]; rfl⟩
          · intro hnone
            obtain ⟨c1, c2⟩ := e4 hnone
            have hidin : id ∈
                ((fncLoop (fncFuel fuel) (getT bs id).relations
                  ⟨st.bs, id :: st.checked⟩).2).checked := by
              apply mem_of_ext e1
              exact List.mem_cons_self id st.checked
            refine ⟨hidin, ?_⟩
            intro j hj hj'
            by_cases hji : j = id
            · subst hji
              exact fun r hr ho => c1 r hr ho
            · exact c2 j hj (by
                intro hc
                rcases List.mem_cons.1 hc with hc | hc
                · exact hji hc
                · exact hj' hc)
        · intro j hj
          rcases List.mem_cons.1 hj with hj | hj
          · subst hj; exact hid
          · exact hbd j hj
        · simp only [List.length_cons]
          omega

theorem fncLoop_eq {bs : BuildState} (hwf : RelsWF bs)
    {next1 next2 : ProgState → Nat → Option SearchResult × ProgState}
    (hbs2 : ∀ st id, ((next2 st id).2).bs = st.bs) (fuelN : Nat)
    (hpost : ∀ st id, st.bs = bs → st.checked.Nodup →
      (∀ j ∈ st.checked, j < bs.arena.length) →
      bs.arena.length + 1 ≤ fuelN + st.checked.length →
      id < bs.arena.length → SPost bs st id (next2 st id))
    (heq : ∀ st id, st.bs = bs → st.checked.Nodup →
      (∀ j ∈ st.checked, j < bs.arena.length) →
      bs.arena.length + 1 ≤ fuelN + st.checked.length →
      id < bs.arena.length → next1 st id = next2 st id) :
    ∀ (rels : List TableRelation) (pid : Nat) (st : ProgState), st.bs = bs →
      (∀ r ∈ rels, r ∈ (getT bs pid).relations) →
      st.checked.Nodup → (∀ j ∈ st.checked, j < bs.arena.length) →
      bs.arena.length + 1 ≤ fuelN + st.checked.length →
      fncLoop next1 rels st = fncLoop next2 rels st := by
  intro rels
  induction rels with
  | nil => intro pid st _ _ _ _ _; rfl
  | cons r rs ih =>
      intro pid st hst hsub hnd hbd hslack
      have hrmem : r ∈ (getT bs pid).relations := hsub r (List.mem_cons_self r rs)
      have hrsub : ∀ x ∈ rs, x ∈ (getT bs pid).relations :=
        fun x hx => hsub x (List.mem_cons_of_mem r hx)
      have hrtab : r.table < bs.arena.length := (hwf pid r hrmem).2
      simp only [fncLoop]
      split
      · exact ih pid st hst hrsub hnd hbd hslack
      · split
        · rfl
        · have he := heq st r.table hst hnd hbd hslack hrtab
          rw [he]
          have hsp := hpost st r.table hst hnd hbd hslack hrtab
          rcases hres : next2 st r.table with ⟨o, stm⟩
          rw [hres] at hsp
          obtain ⟨p1, p2, p3, _⟩ := hsp
          have hstm : stm.bs = bs := by
            have := hbs2 st r.table; rw [hres] at this; rw [this, hst]
          cases o with
          | some res0 => rfl
          | none =>
              have hlen : st.checked.length ≤ stm.checked.length := by
                obtain ⟨pre, hp⟩ := p1
                rw [hp, List.length_append]
                omega
              exact ih pid stm hstm hrsub p2 p3 (by omega)

theorem fncFuel_eq : ∀ (fuel : Nat) (bs : BuildState), RelsWF bs →
    ∀ (st : ProgState) (id : Nat), st.bs = bs → st.checked.Nodup →
    (∀ j ∈ st.checked, j < bs.arena.length) →
    bs.arena.length + 1 ≤ fuel + st.checked.length →
    id < bs.arena.length →
    fncFuel (fuel + 1) st id = fncFuel fuel st id := by
  intro fuel
  induction fuel with
  | zero =>
      intro bs _ st id _ hnd hbd hslack _
      have := nodup_bound hnd hbd
      omega
  | succ fuel ih =>
      intro bs hwf st id hst hnd hbd hslack hid
      show fncFuel (fuel + 2) st id = fncFuel (fuel + 1) st id
      simp only [fncFuel]
      split
      · rfl
      · rename ¬ id ∈ st.checked => hmem
        have hrels : (getT st.bs id).relations = (getT bs id).relations := by rw [hst]
        rw [hrels]
        have hstrew :
            (⟨st.bs, id :: st.checked⟩ : ProgState) = ⟨bs, id :: st.checked⟩ := by
          rw [hst]
        rw [hstrew]
        exact fncLoop_eq hwf (fncFuel_bs fuel) fuel
          (fun st' id' h1 h2 h3 h4 h5 => fncFuel_complete fuel bs hwf st' id' h1 h2 h3 h4 h5)
          (fun st' id' h1 h2 h3 h4 h5 => ih bs hwf st' id' h1 h2 h3 h4 h5)
          (getT bs id).relations id ⟨bs, id :: st.checked⟩ rfl (fun r hr => hr)
          (List.nodup_cons.2 ⟨hmem, hnd⟩)
          (by
            intro j hj
            rcases List.mem_cons.1 hj with hj | hj
            · subst hj; exact hid
            · exact hbd j hj)
          (by simp only [List.length_cons]; omega)

theorem fncFuel_add : ∀ (k fuel : Nat) (bs : BuildState), RelsWF bs →
    ∀ (st : ProgState) (id : Nat), st.bs = bs → st.checked.Nodup →
    (∀ j ∈ st.checked, j < bs.arena.length) →
    bs.arena.length + 1 ≤ fuel + st.checked.length →
    id < bs.arena.length →
    fncFuel (fuel + k) st id = fncFuel fuel st id := by
  intro k
  induction k with
  | zero => intro fuel bs _ st id _ _ _ _ _; rfl
  | succ k ih =>
      intro fuel bs hwf st id hst hnd hbd hslack hid
      have h1 : fuel + (k + 1) = (fuel + k) + 1 := by omega
      rw [h1, fncFuel_eq (fuel + k) bs hwf st id hst hnd hbd (by omega) hid]
      exact ih fuel bs hwf st id hst hnd hbd hslack hid

theorem fncFuel_sound : ∀ (fuel : Nat) (st : ProgState) (id : Nat) (res : SearchResult)
    (st1 : ProgState), RelsWF st.bs → fncFuel fuel st id = (some res, st1) →
    SoundRes st.bs id res := by
  intro fuel
  induction fuel with
  | zero => intro st id res st1 _ hrun; exact absurd hrun (by simp [fncFuel])
  | succ fuel ih =>
      intro st id res st1 hwf hrun
      simp only [fncFuel] at hrun
      split at hrun
      · exact absurd hrun (by simp)
      · refine fncLoop_sound hwf (fncFuel_bs fuel) ?_ (getT st.bs id).relations id
          ⟨st.bs, id :: st.checked⟩ res st1 rfl (fun r hr => hr) hrun
        intro st' id' res' st1' hst' hres'
        have h0 := ih st' id' res' st1' (by rw [hst']; exact hwf) hres'
        rw [hst'] at h0
        exact h0

theorem analyze_none_of_cascade {edges : List RelationRecord} {target : String}
    (h : ∀ e ∈ edges, ReachC edges target e.table → e.on_delete = "CASCADE") :
    (analyze edges target).1 = none := by
  rcases han : analyze edges target with ⟨o, stf⟩
  cases o with
  | none => rfl
  | some res =>
      exfalso
      obtain ⟨hwf, hco, hlen, hcol0, hname0⟩ := built_ok edges target
      have han' : fncFuel (searchFuel (build edges target))
          ⟨build edges target, []⟩ 0 = (some res, stf) := han
      have hs : SoundRes (build edges target) 0 res :=
        fncFuel_sound _ _ _ _ _ hwf han'
      obtain ⟨hself, hcf, hmem, hidr, _, _, _⟩ := hs
      obtain ⟨hreach, hcolp⟩ := idReach_to_ReachC hco hcol0 hidr
      rw [hname0] at hreach
      obtain ⟨hd1, _⟩ := hco res.found.parent hcolp
      have hv : relView (build edges target) res.found ∈
          canonRels edges ((getT (build edges target) res.found.parent).name) := by
        rw [← hd1]
        exact List.mem_map_of_mem _ hmem
      have hv2 : (Owner.self,
          (getT (build edges target) res.found.table).name, res.found.cascades) ∈
          canonRels edges ((getT (build edges target) res.found.parent).name) := by
        rw [← hself]
        exact hv
      obtain ⟨e, he, he1, he2, he3, he4⟩ := canon_self_entry hv2
      have hre : ReachC edges target e.table := by
        rw [he2]
        exact hreach
      have hcd := h e he hre
      rw [hcf, hcd] at he4
      simp at he4

theorem analyze_unsafe_of_reach {edges : List RelationRecord} {target : String}
    (h : ∃ e ∈ edges, ¬ e.name = e.table ∧ ReachC edges target e.table ∧
      ¬ e.on_delete = "CASCADE") :
    ∃ res stf, analyze edges target = (some res, stf) ∧
      res.relationChain.head? = some target ∧
      lastTwo res.relationChain =
        [(getT (build edges target) res.found.parent).name,
          (getT (build edges target) res.found.table).name] := by
  obtain ⟨e, he, hee, hreach, hnc⟩ := h
  have hbo := built_ok edges target
  rcases han : analyze edges target with ⟨o, stf⟩
  cases o with
  | some res =>
      have han' : fncFuel (searchFuel (build edges target))
          ⟨build edges target, []⟩ 0 = (some res, stf) := han
      have hs : SoundRes (build edges target) 0 res :=
        fncFuel_sound _ _ _ _ _ hbo.1 han'
      refine ⟨res, stf, rfl, ?_, hs.2.2.2.2.2.2⟩
      have hh := hs.2.2.2.2.2.1
      rw [hbo.2.2.2.2] at hh
      exact hh
  | none =>
      exfalso
      have han' : fncFuel (searchFuel (build edges target))
          ⟨build edges target, []⟩ 0 = (none, stf) := han
      have hpost := fncFuel_complete (searchFuel (build edges target))
        (build edges target) hbo.1 ⟨build edges target, []⟩ 0 rfl List.nodup_nil
        (by intro j hj; exact absurd hj (List.not_mem_nil j))
        (by simp [searchFuel]) hbo.2.2.1
      rw [han'] at hpost
      obtain ⟨_, _, _, hnone⟩ := hpost
      obtain ⟨h0, hnew⟩ := hnone rfl
      have hA : ∀ j ∈ stf.checked, GoodT (build edges target) j stf.checked :=
        fun j hj => hnew j hj (List.not_mem_nil j)
      obtain ⟨j, hjC, hjname, hjcol⟩ := reach_visited hbo h0 hA e.table hreach
      have hentry := canon_mem_of_edge (n := (getT (build edges target) j).name)
        he (by rw [hjname]; exact hee) (by rw [hjname])
      obtain ⟨hd1, _⟩ := hbo.2.1 j hjcol
      rw [← hd1] at hentry
      obtain ⟨r, hrmem, hrv⟩ := List.mem_map.1 hentry
      obtain ⟨ho, _, hcsc⟩ := relView_eq_iff hrv
      obtain ⟨hct, _⟩ := hA j hjC r hrmem ho
      rw [hct, decide_eq_false hnc] at hcsc
      exact Bool.noConfusion hcsc

theorem build_stable (edges : List RelationRecord) (target : String) (fuel : Nat)
    (h : buildFuel edges ≤ fuel) :
    collectStep edges fuel (initState target) 0 = build edges target := by
  have h1 : fuel = buildFuel edges + (fuel - buildFuel edges) := by omega
  rw [h1]
  exact collect_stable edges target _

theorem search_stable (edges : List RelationRecord) (target : String) (fuel : Nat)
    (h : searchFuel (build edges target) ≤ fuel) :
    fncFuel fuel ⟨build edges target, []⟩ 0 = analyze edges target := by
  have hbo := built_ok edges target
  have h1 : fuel = searchFuel (build edges target) +
      (fuel - searchFuel (build edges target)) := by omega
  rw [h1]
  exact fncFuel_add (fuel - searchFuel (build edges target))
    (searchFuel (build edges target)) (build edges target) hbo.1
    ⟨build edges target, []⟩ 0 rfl List.nodup_nil
    (by intro j hj; exact absurd hj (List.not_mem_nil j))
    (by simp [searchFuel]) hbo.2.2.1

theorem selfloop_safe (t d : String) : (analyze [⟨t, t, d⟩] t).1 = none := by
  rcases han : analyze [⟨t, t, d⟩] t with ⟨o, stf⟩
  cases o with
  | none => rfl
  | some res =>
      exfalso
      obtain ⟨hwf, hco, hlen, hcol0, hname0⟩ := built_ok [⟨t, t, d⟩] t
      have han' : fncFuel (searchFuel (build [⟨t, t, d⟩] t))
          ⟨build [⟨t, t, d⟩] t, []⟩ 0 = (some res, stf) := han
      have hs : SoundRes (build [⟨t, t, d⟩] t) 0 res :=
        fncFuel_sound _ _ _ _ _ hwf han'
      obtain ⟨hself, hcf, hmem, hidr, _, _, _⟩ := hs
      obtain ⟨_, hcolp⟩ := idReach_to_ReachC hco hcol0 hidr
      obtain ⟨hd1, _⟩ := hco res.found.parent hcolp
      have hv : relView (build [⟨t, t, d⟩] t) res.found ∈
          canonRels [⟨t, t, d⟩]
            ((getT (build [⟨t, t, d⟩] t) res.found.parent).name) := by
        rw [← hd1]
        exact List.mem_map_of_mem _ hmem
      have hv2 : (Owner.self,
          (getT (build [⟨t, t, d⟩] t) res.found.table).name, res.found.cascades) ∈
          canonRels [⟨t, t, d⟩]
            ((getT (build [⟨t, t, d⟩] t) res.found.parent).name) := by
        rw [← hself]
        exact hv
      obtain ⟨e, he, he1, he2, _, _⟩ := canon_self_entry hv2
      rcases List.mem_singleton.1 he with rfl
      exact he1 he2

end CanIDelete

namespace CanIDelete

/-- C1 (amended): for every schema containing at least one non-cascading
foreign-key edge between two distinct tables whose parent table is
reachable from the target through cascading parent-owned relations, the
search returns Unsafe, the chain starts with the target table's name, and
the last two chain elements are the names of the blocking relation's parent
(holder) table and child table. -/
theorem claim_C1 (edges : List RelationRecord) (target : String)
    (h : ∃ e ∈ edges, ¬ e.name = e.table ∧ ReachC edges target e.table ∧
      ¬ e.on_delete = "CASCADE") :
    ∃ res stf, analyze edges target = (some res, stf) ∧
      res.relationChain.head? = some target ∧
      lastTwo res.relationChain =
        [(getT (build edges target) res.found.parent).name,
          (getT (build edges target) res.found.table).name] :=
  analyze_unsafe_of_reach h

/-- C1 witness: on the schema where `B` references `A` with `NO ACTION` and
target `A`, the hypothesis holds and the search returns Unsafe with the
stated chain shape. -/
theorem claim_C1_witness :
    (∃ e ∈ [(⟨"B", "A", "NO ACTION"⟩ : RelationRecord)],
      ¬ e.name = e.table ∧ ReachC [⟨"B", "A", "NO ACTION"⟩] "A" e.table ∧
      ¬ e.on_delete = "CASCADE") ∧
    (∃ res stf, analyze [⟨"B", "A", "NO ACTION"⟩] "A" = (some res, stf) ∧
      res.relationChain.head? = some "A" ∧
      lastTwo res.relationChain =
        [(getT (build [⟨"B", "A", "NO ACTION"⟩] "A") res.found.parent).name,
          (getT (build [⟨"B", "A", "NO ACTION"⟩] "A") res.found.table).name]) :=
  ⟨⟨⟨"B", "A", "NO ACTION"⟩, List.mem_singleton.2 rfl, by decide,
      ReachC.refl "A", by decide⟩,
    claim_C1 [⟨"B", "A", "NO ACTION"⟩] "A"
      ⟨⟨"B", "A", "NO ACTION"⟩, List.mem_singleton.2 rfl, by decide,
        ReachC.refl "A", by decide⟩⟩

/-- C1 counterexample: a self-referencing edge with `NO ACTION` is a
non-cascading relation whose parent table is (trivially) reachable from the
target, yet the search returns Safe, refuting the claim as stated. -/
theorem claim_C1_cx :
    (∃ e ∈ [(⟨"T", "T", "NO ACTION"⟩ : RelationRecord)],
      ReachC [⟨"T", "T", "NO ACTION"⟩] "T" e.table ∧
      ¬ e.on_delete = "CASCADE") ∧
    (analyze [⟨"T", "T", "NO ACTION"⟩] "T").1 = none :=
  ⟨⟨⟨"T", "T", "NO ACTION"⟩, List.mem_singleton.2 rfl, ReachC.refl "T",
      by decide⟩,
    by decide⟩

/-- C2: for every schema in which every foreign-key edge whose parent table
is reachable from the target through cascading parent-owned relations
cascades, the search returns Safe (no witness, hence no chain); cyclic
all-CASCADE schemas and relation-free targets are instances. -/
theorem claim_C2 (edges : List RelationRecord) (target : String)
    (h : ∀ e ∈ edges, ReachC edges target e.table → e.on_delete = "CASCADE") :
    (analyze edges target).1 = none :=
  analyze_none_of_cascade h

/-- C2 witness: the cyclic two-table schema with CASCADE in both directions
satisfies the hypothesis, and the search on target `A` returns Safe. -/
theorem claim_C2_witness :
    (∀ e ∈ [(⟨"B", "A", "CASCADE"⟩ : RelationRecord), ⟨"A", "B", "CASCADE"⟩],
      ReachC [⟨"B", "A", "CASCADE"⟩, ⟨"A", "B", "CASCADE"⟩] "A" e.table →
      e.on_delete = "CASCADE") ∧
    (analyze [⟨"B", "A", "CASCADE"⟩, ⟨"A", "B", "CASCADE"⟩] "A").1 = none := by
  have hhyp : ∀ e ∈ [(⟨"B", "A", "CASCADE"⟩ : RelationRecord),
      ⟨"A", "B", "CASCADE"⟩],
      ReachC [⟨"B", "A", "CASCADE"⟩, ⟨"A", "B", "CASCADE"⟩] "A" e.table →
      e.on_delete = "CASCADE" := by
    intro e he _
    rcases List.mem_cons.1 he with rfl | he2
    · rfl
    rcases List.mem_cons.1 he2 with rfl | he3
    · rfl
    · exact absurd he3 (List.not_mem_nil e)
  exact ⟨hhyp, claim_C2 _ _ hhyp⟩

/-- C3 (amended): for a schema with one self-referencing edge on the target
table, the search returns Safe regardless of the delete action: the
self-edge is recorded only through the first branch of `collectRelations`
(owner `parent`), which the search skips, so even `NO ACTION` yields Safe
rather than Unsafe with chain `[table, table]`. -/
theorem claim_C3 (t d : String) : (analyze [⟨t, t, d⟩] t).1 = none :=
  selfloop_safe t d

/-- C3 counterexample: with the self-referencing edge on `T` carrying
`NO ACTION`, the search returns Safe (`none`), not Unsafe with chain
`[T, T]` as the claim states. -/
theorem claim_C3_cx : (analyze [⟨"T", "T", "NO ACTION"⟩] "T").1 = none := by
  decide

/-- C4 (amended): the search never examines relations whose `owner` field
is `parent`: deleting all of them from every table leaves the search result
unchanged, so the result is computed exclusively from the `owner = self`
relations — the opposite of the claim, which swaps the two labels. -/
theorem claim_C4 (bs : BuildState) (fuel : Nat) (ch : List Nat) (id : Nat) :
    (fncFuel fuel ⟨dropParent bs, ch⟩ id).1 = (fncFuel fuel ⟨bs, ch⟩ id).1 :=
  (fncFuel_dropParent fuel bs ch id).1

/-- C4 counterexample: a non-cascading relation labelled `owner = parent`
is skipped (search returns Safe), while one labelled `owner = self` is
examined (search returns Unsafe) — the claim states the reverse. -/
theorem claim_C4_cx :
    (analyze [⟨"T", "P", "NO ACTION"⟩] "T").1 = none ∧
    ((getT (build [⟨"T", "P", "NO ACTION"⟩] "T") 0).relations.map
      (fun r => (r.owner, r.cascades)) = [(Owner.parent, false)]) ∧
    (analyze [⟨"C", "T", "NO ACTION"⟩] "T").1 ≠ none ∧
    ((getT (build [⟨"C", "T", "NO ACTION"⟩] "T") 0).relations.map
      (fun r => (r.owner, r.cascades)) = [(Owner.self, false)]) := by
  decide

/-- C5 (amended): every collected table's relation list is exactly the
canonical list: for each raw edge where the table is the child, a relation
with `owner = parent` pointing at the parent table; for each raw edge where
the table is the parent, a relation with `owner = self` pointing at the
child table; in both cases `cascades` holds exactly when `on_delete` is
CASCADE.  The owner labels are the reverse of the claim's. -/
theorem claim_C5 (edges : List RelationRecord) (target : String) (id : Nat)
    (h : (getT (build edges target) id).collected = true) :
    (getT (build edges target) id).relations.map (relView (build edges target)) =
      canonRels edges ((getT (build edges target) id).name) :=
  ((built_ok edges target).2.1 id h).1

/-- C5 witness: the root table of the worked example is collected and its
relation view equals the canonical list. -/
theorem claim_C5_witness :
    (getT (build [(⟨"orders", "customers", "CASCADE"⟩ : RelationRecord),
      ⟨"order_items", "orders", "NO ACTION"⟩] "customers") 0).collected = true ∧
    (getT (build [(⟨"orders", "customers", "CASCADE"⟩ : RelationRecord),
        ⟨"order_items", "orders", "NO ACTION"⟩] "customers") 0).relations.map
      (relView (build [⟨"orders", "customers", "CASCADE"⟩,
        ⟨"order_items", "orders", "NO ACTION"⟩] "customers")) =
      canonRels [⟨"orders", "customers", "CASCADE"⟩,
        ⟨"order_items", "orders", "NO ACTION"⟩]
        ((getT (build [⟨"orders", "customers", "CASCADE"⟩,
          ⟨"order_items", "orders", "NO ACTION"⟩] "customers") 0).name) :=
  ⟨by decide,
    claim_C5 [⟨"orders", "customers", "CASCADE"⟩,
      ⟨"order_items", "orders", "NO ACTION"⟩] "customers" 0 (by decide)⟩

/-- C5 counterexample: processing the edge `B references A` at table `B`
(the child) appends a relation with `owner = parent`, not `owner = self` as
the claim states. -/
theorem claim_C5_cx :
    (getT (build [⟨"B", "A", "NO ACTION"⟩] "B") 0).relations =
      [⟨0, Owner.parent, 1, false⟩] ∧ Owner.parent ≠ Owner.self := by
  decide

/-- C6 (amended): the registry maps each registered name to exactly one
node (keys and node indices are both duplicate-free, and each registered
node carries its key as name), every relation's `table` field is the unique
registered node for its name, and every registered node is distinct from
the unregistered root (index 0) — but the root itself is not in the
registry, so a second node carrying the target's name can exist. -/
theorem claim_C6 (edges : List RelationRecord) (target : String) :
    ((build edges target).registry.map Prod.fst).Nodup ∧
    ((build edges target).registry.map Prod.snd).Nodup ∧
    (∀ p ∈ (build edges target).registry,
      (getT (build edges target) p.2).name = p.1 ∧ 1 ≤ p.2) ∧
    (∀ id : Nat, ∀ r ∈ (getT (build edges target) id).relations,
      (build edges target).registry.lookup
        ((getT (build edges target) r.table).name) = some r.table) := by
  obtain ⟨hinv, _, _⟩ := build_inv edges target
  obtain ⟨⟨_, hRm, hR4, hR6⟩, hrel, _, _, _⟩ := hinv
  exact ⟨hR4, hR6, fun p hp => ⟨(hRm p hp).1, (hRm p hp).2.1⟩,
    fun id r hr => (hrel id r hr).2.2.2⟩

/-- C6 counterexample: with one edge `B references A` and target `A`, the
built arena holds two distinct nodes named `A` (the unregistered root at
index 0 and the registered node at index 2), and the relation of `B` points
at index 2, not at the root — so the name-to-instance mapping is not a
bijection for the target's name. -/
theorem claim_C6_cx :
    ((build [⟨"B", "A", "CASCADE"⟩] "A").arena.map Table.name = ["A", "B", "A"]) ∧
    ((build [⟨"B", "A", "CASCADE"⟩] "A").registry.lookup "A" = some 2) ∧
    ((getT (build [⟨"B", "A", "CASCADE"⟩] "A") 1).relations.map
      TableRelation.table = [2]) := by
  decide

/-- C7 (amended): the `checkedTables` set is module-level state that
persists across invocations, so searches interfere: a search whose root is
already in the persisted set returns `none` immediately and leaves the
state unchanged, regardless of the graph. -/
theorem claim_C7 (fuel : Nat) (st : ProgState) (id : Nat)
    (h : id ∈ st.checked) : fncFuel fuel st id = (none, st) :=
  fncFuel_mem_checked fuel st id h

/-- C7 witness: after the program's own search on the root (which marks it
checked), the root is in the persisted set and a repeated search returns
`none`. -/
theorem claim_C7_witness :
    (0 ∈ ((analyze [⟨"B", "A", "NO ACTION"⟩] "A").2).checked) ∧
    fncFuel (searchFuel (build [⟨"B", "A", "NO ACTION"⟩] "A"))
        ((analyze [⟨"B", "A", "NO ACTION"⟩] "A").2) 0 =
      (none, (analyze [⟨"B", "A", "NO ACTION"⟩] "A").2) :=
  ⟨by decide,
    claim_C7 (searchFuel (build [⟨"B", "A", "NO ACTION"⟩] "A"))
      ((analyze [⟨"B", "A", "NO ACTION"⟩] "A").2) 0 (by decide)⟩

/-- C7 counterexample: running the search on root `A` and then again on
`A` over the same built graph returns `none` the second time although the
fresh search returns a witness — repeated searches are not independent, so
the visited set is not scoped to a single invocation. -/
theorem claim_C7_cx :
    (fncFuel (searchFuel (build [⟨"B", "A", "NO ACTION"⟩] "A"))
      ((analyze [⟨"B", "A", "NO ACTION"⟩] "A").2) 0).1 ≠
      (analyze [⟨"B", "A", "NO ACTION"⟩] "A").1 := by
  decide

/-- C8: both phases terminate: any fuel at least `buildFuel` makes the
graph build reach its fixed result, and any fuel at least `searchFuel`
makes the search reach its fixed result — beyond the bound given by the
finite table count, extra recursion depth changes nothing. -/
theorem claim_C8 (edges : List RelationRecord) (target : String)
    (f1 f2 : Nat) (h1 : buildFuel edges ≤ f1)
    (h2 : searchFuel (build edges target) ≤ f2) :
    collectStep edges f1 (initState target) 0 = build edges target ∧
    fncFuel f2 ⟨build edges target, []⟩ 0 = analyze edges target :=
  ⟨build_stable edges target f1 h1, search_stable edges target f2 h2⟩

/-- C8 witness: on the worked example with fuel 9 for both phases, the
bounds hold and both runs equal the canonical results. -/
theorem claim_C8_witness :
    (buildFuel [(⟨"orders", "customers", "CASCADE"⟩ : RelationRecord),
      ⟨"order_items", "orders", "NO ACTION"⟩] ≤ 9 ∧
     searchFuel (build [(⟨"orders", "customers", "CASCADE"⟩ : RelationRecord),
      ⟨"order_items", "orders", "NO ACTION"⟩] "customers") ≤ 9) ∧
    (collectStep [(⟨"orders", "customers", "CASCADE"⟩ : RelationRecord),
        ⟨"order_items", "orders", "NO ACTION"⟩] 9 (initState "customers") 0 =
      build [⟨"orders", "customers", "CASCADE"⟩,
        ⟨"order_items", "orders", "NO ACTION"⟩] "customers" ∧
      fncFuel 9 ⟨build [⟨"orders", "customers", "CASCADE"⟩,
        ⟨"order_items", "orders", "NO ACTION"⟩] "customers", []⟩ 0 =
      analyze [⟨"orders", "customers", "CASCADE"⟩,
        ⟨"order_items", "orders", "NO ACTION"⟩] "customers") :=
  ⟨⟨by decide, by decide⟩,
    claim_C8 [⟨"orders", "customers", "CASCADE"⟩,
      ⟨"order_items", "orders", "NO ACTION"⟩] "customers" 9 9
      (by decide) (by decide)⟩

/-- C9: on the concrete schema where `orders` references `customers` with
CASCADE and `order_items` references `orders` with NO ACTION, analyzing
`customers` returns Unsafe with chain exactly
`[customers, orders, order_items]`. -/
theorem claim_C9 :
    ((analyze [⟨"orders", "customers", "CASCADE"⟩,
      ⟨"order_items", "orders", "NO ACTION"⟩] "customers").1).map
      SearchResult.relationChain =
      some ["customers", "orders", "order_items"] := by
  decide

/-- C10: running the search over a built graph never changes any table
node: the arena (every table's name, relation list and collected marker)
and the registry after any search invocation are exactly the built ones. -/
theorem claim_C10 (edges : List RelationRecord) (target : String)
    (ch : List Nat) (fuel : Nat) (id : Nat) :
    ((fncFuel fuel ⟨build edges target, ch⟩ id).2).bs = build edges target :=
  fncFuel_bs fuel ⟨build edges target, ch⟩ id

end CanIDelete
